import Mathlib

/-!
Verification development for the scheduling core of `go-doit` (`src/main.go`).

The Go source is shallowly embedded as executable Lean definitions:

* Go `mapset.Set` fields of `Task` are modelled as `List String` with
  membership semantics (a set iteration is modelled as iteration over the
  list in order; all set operations used by the source — membership,
  intersection, union, difference, cardinality-positivity — only depend on
  membership, so possible duplicates in the lists are harmless).
* The filesystem is a function `FS := String → Option String` mapping a
  path to its content when the file exists (`os.Stat`/`os.IsNotExist`).
* The Storm database is a key-value store `Store := String → Option
  (List (String × String))` keyed by task name, holding the persisted
  `fileHashes` map, modelled as an association list (Go maps cannot hold
  duplicate keys, and every map the program stores is produced by
  `CalculateDepData`, whose per-key value is determined by the key).
* `log.Fatal`/panics terminate the Go process; they are modelled as
  `Except` errors (`SchedErr`), so a fatal run returns `.error e` and a
  completed run returns `.ok v`.
* The third-party `github.com/stevenle/topsort` library is embedded by its
  source: a graph is an association list from node name to its edge-target
  set (insertion order, deduplicated, matching the `node` map), and
  `TopSort` is the library's depth-first visit with path-based cycle
  detection.  The Go recursion is structural on the path depth, bounded by
  the number of distinct node names; we make this explicit with a fuel
  parameter and prove that the chosen fuel can never run out.
-/

set_option maxHeartbeats 1000000

namespace GoDoit

/-! ### Definitions -/

/-- Model of `Task` from `src/main.go`: a named unit of work with file dependencies,
targets, and explicit task-order dependencies.  The Go `mapset.Set` fields
are modelled as lists with membership semantics. -/
structure Task where
  name : String
  fileDep : List String
  targets : List String
  taskDep : List String
  deriving Repr, DecidableEq

/-- Filesystem model: `fs path = some content` when the file exists. -/
def FS : Type := String → Option String

/-- Persistent store model (Storm DB): task name ↦ persisted `fileHashes`
map (`none` when no record was ever written for that name). -/
def Store : Type := String → Option (List (String × String))

/-- Modelled from the spec: the content-digest collaborator (spec §6).  The
Go source uses the md5 hex digest of the file contents; the spec requires
only a deterministic, collision-resistant digest whose value on any
existing content (including empty content) is distinct from the absent
sentinel `""`.  We model it as an injective encoding with a non-empty
prefix, which has exactly those properties. -/
def hexDigest (content : String) : String := "md5:" ++ content

/-- Model of `hashFile` from `src/main.go`: files that do not exist get the sentinel
digest `""`; existing files get the digest of their contents. -/
def hashFile (fs : FS) (path : String) : String :=
  match fs path with
  | none => ""
  | some content => hexDigest content

/-- The `hashes` map built by `CalculateDepData`: each path in
`task.fileDep` is mapped to `hashFile path`. -/
def calcHashes (fs : FS) (t : Task) : List (String × String) :=
  t.fileDep.map (fun p => (p, hashFile fs p))

/-- Model of `DepData` from `src/main.go`.  `fileHashes = none` models the Go `nil`
map (the zero value left by a failed `db.Get`); a computed map is always
`some`. -/
structure DepData where
  ID : String
  fileHashes : Option (List (String × String))
  deriving Repr, DecidableEq

/-- Model of `CalculateDepData` from `src/main.go`. -/
def CalculateDepData (fs : FS) (t : Task) : DepData :=
  { ID := t.name, fileHashes := some (calcHashes fs t) }

/-- Model of `GetLastDepData` from `src/main.go`: reads the persisted map for
`task.name`; when no record exists the `fileHashes` field keeps its `nil`
zero value (`none`). -/
def GetLastDepData (st : Store) (t : Task) : DepData :=
  { ID := t.name, fileHashes := st t.name }

/-- Model of `UpdateDepData` from `src/main.go`: recompute the fingerprint and
overwrite the persisted record for `task.name`. -/
def UpdateDepData (fs : FS) (st : Store) (t : Task) : Store :=
  fun k => if k = t.name then some (calcHashes fs t) else st k

/-- Association-list lookup (the Go map read `m[k]`). -/
def lookupA (l : List (String × String)) (k : String) : Option String :=
  (l.find? (fun p => p.1 == k)).map Prod.snd

/-- Model of `reflect.DeepEqual` on two Go `map[string]string` values: equal iff
they contain exactly the same key → value associations. -/
def mapEqvB (a b : List (String × String)) : Bool :=
  a.all (fun p => lookupA b p.1 == some p.2) &&
  b.all (fun p => lookupA a p.1 == some p.2)

/-- Model of `reflect.DeepEqual` on two `DepData` values: the `ID`s must be equal
and the `fileHashes` maps deeply equal; a `nil` map (`none`) is not deeply
equal to any non-nil map, even an empty one. -/
def depDataEqB (a b : DepData) : Bool :=
  (a.ID == b.ID) &&
  match a.fileHashes, b.fileHashes with
  | none, none => true
  | some x, some y => mapEqvB x y
  | _, _ => false

/-- Model of `dirty` from `src/main.go`: a task needs to run again when its stored
`DepData` differs from the current one, or any `fileDep` path is missing,
or any target is missing. -/
def dirty (fs : FS) (st : Store) (t : Task) : Bool :=
  let old := GetLastDepData st t
  let nw := CalculateDepData fs t
  if !(depDataEqB old nw) then true
  else if t.fileDep.any (fun p => (fs p).isNone) then true
  else if t.targets.any (fun p => (fs p).isNone) then true
  else false

/-- Model of `FilterTasks` from `src/main.go`: keep exactly the dirty tasks, in
order. -/
def FilterTasks (fs : FS) (st : Store) (tasks : List Task) : List Task :=
  tasks.filter (fun t => dirty fs st t)

/-- Errors of the embedded `github.com/stevenle/topsort` library's
`TopSort`.  `.fuelOut` is an artifact of the explicit fuel and is proved
unreachable for the fuel `topSort` uses. -/
inductive TopErr where
  | fuelOut : TopErr
  | cycleFound : List String → TopErr
  deriving Repr, DecidableEq

/-- A `topsort.Graph`: association list node name ↦ edge-target list
(the Go `node` edge map, insertion order, deduplicated). -/
structure Graph where
  nodes : List (String × List String)
  deriving Repr, DecidableEq

/-- The empty graph (`topsort.NewGraph`). -/
def Graph.empty : Graph := ⟨[]⟩

/-- Model of `Graph.ContainsNode`. -/
def Graph.containsNode (g : Graph) (n : String) : Bool :=
  g.nodes.any (fun p => p.1 == n)

/-- Model of `Graph.AddNode`: create the node if it is not already present. -/
def Graph.addNode (g : Graph) (n : String) : Graph :=
  if g.containsNode n then g else ⟨g.nodes ++ [(n, [])]⟩

/-- The edge-target list of a node (empty for an absent node, matching the
Go read of a `nil` map). -/
def Graph.edgesOf (g : Graph) (n : String) : List String :=
  match g.nodes.find? (fun p => p.1 == n) with
  | some p => p.2
  | none => []

/-- The edge-set insertion `node.addEdge`: record `b` as an edge target of
`a`; a no-op when `a` has no node (used where the Go code discards the
`AddEdge` error). -/
def Graph.addEdgeRaw (g : Graph) (a b : String) : Graph :=
  ⟨g.nodes.map (fun p =>
    if p.1 == a then (p.1, if p.2.contains b then p.2 else p.2 ++ [b]) else p)⟩

/-- The edge test `hasEdge g a b`: `b` is an edge target of `a`. -/
def Graph.hasEdge (g : Graph) (a b : String) : Bool :=
  (g.edgesOf a).contains b

/-- Model of `Graph.AddEdge`: fails when the source node does not exist (the Go
library returns an error, which the scheduler turns into `log.Fatal`). -/
def Graph.addEdgeE (g : Graph) (a b : String) : Except String Graph :=
  if g.containsNode a then .ok (g.addEdgeRaw a b) else .error a

/-- Model of `orderedset.add`: append if not already present. -/
def osAdd (l : List String) (n : String) : List String :=
  if l.contains n then l else l ++ [n]

/-- The cycle reported by the Go visit: the suffix of the current path
starting at the repeated node, closed with the node itself
(`visited[index:]` followed by `name`). -/
def cycSuffix (visited : List String) (n : String) : List String :=
  (visited.dropWhile (fun x => x != n)) ++ [n]

/-- The depth-first visit of `topsort.Graph.TopSort` (`Graph.visit`).
`visited` is the current path from the start node; revisiting a path
member reports a cycle; otherwise every edge target is visited in order
(the `foldlM` threads `results` and short-circuits on the first error,
exactly like the Go loop over `n.edges()`), and the name itself is
appended afterwards (the postorder `results.add(name)`).  The Go recursion
depth is the path length; `fuel` bounds it explicitly, decreasing by one
per descent, and is proved never to run out for the fuel `topSort`
passes. -/
def visitD (g : Graph) : Nat → String → List String → List String →
    Except TopErr (List String)
  | 0, _, _, _ => .error .fuelOut
  | fuel + 1, name, results, visited =>
    if visited.contains name then .error (.cycleFound (cycSuffix visited name))
    else
      match (g.edgesOf name).foldlM
          (fun r c => visitD g fuel c r (visited ++ [name])) results with
      | .error e => .error e
      | .ok r1 => .ok (osAdd r1 name)

/-- Every name the visit can ever reach: the node keys together with every
recorded edge target. -/
def Graph.nameUniv (g : Graph) : List String :=
  g.nodes.map Prod.fst ++ g.nodes.flatMap Prod.snd

/-- Model of `topsort.Graph.TopSort`: depth-first visit starting from `root`, with
fuel one more than the number of names the visit could ever push on the
path (proved sufficient below). -/
def Graph.topSort (g : Graph) (root : String) : Except TopErr (List String) :=
  visitD g ((root :: g.nameUniv).length + 1) root [] []

/-- The fatal outcomes of `ScheduleTasks` in `src/main.go`.  `log.Fatal`
and runtime panics both kill the Go process; each is a distinct error
constructor here. -/
inductive SchedErr where
  | edgeFatal : String → SchedErr
  | missingDep : String → String → SchedErr
  | sharedTargets : String → String → List String → SchedErr
  | sortFatal : TopErr → SchedErr
  | panicRemap : SchedErr
  deriving Repr, DecidableEq

/-- The synthetic root task built at the top of `ScheduleTasks`. -/
def rootTask : Task := { name := "root", fileDep := [], targets := [], taskDep := [] }

/-- The first loop of `ScheduleTasks`: add a node per task and the edge
root → task, with the Go `err != nil → log.Fatal` on `AddEdge` mapped to
`.error (.edgeFatal _)` (proved unreachable: "root" is always a node). -/
def addTasksNodes (tasks : List Task) : Except SchedErr Graph :=
  tasks.foldlM
    (fun g t =>
      match (g.addNode t.name).addEdgeE "root" t.name with
      | .ok g' => .ok g'
      | .error a => .error (.edgeFatal a))
    (Graph.empty.addNode "root")

/-- The second loop of `ScheduleTasks`: one edge `task.name → dep` for each
entry of `taskDep`, with the `AddEdge` error again fatal (proved
unreachable: every task name is a node). -/
def addTaskDepEdges (g : Graph) (tasks : List Task) : Except SchedErr Graph :=
  tasks.foldlM
    (fun g t =>
      t.taskDep.foldlM
        (fun g d =>
          match g.addEdgeE t.name d with
          | .ok g' => .ok g'
          | .error a => .error (.edgeFatal a))
        g)
    g

/-- The union of all tasks' target sets (`allTargets` in the source);
membership is what the source uses it for. -/
def allTargets (tasks : List Task) : List String :=
  tasks.foldl (fun acc t => acc ++ t.targets) []

/-- The sanity check of `src/main.go` lines 69-83: every file dependency
that is not some task's target must exist, otherwise
`log.Fatalf("Path %s is a dependency of task %s and is missing.")` —
modelled as `.missingDep path taskName` for the first offender found. -/
def checkDeps (fs : FS) (alltg : List String) : List Task → Except SchedErr Unit
  | [] => .ok ()
  | t :: rest =>
    match t.fileDep.find? (fun p => !(alltg.contains p) && (fs p).isNone) with
    | some p => .error (.missingDep p t.name)
    | none => checkDeps fs alltg rest

/-- All ordered pairs `(tasks[i], tasks[j])` with `i < j`, in the iteration
order of the source's pair loop. -/
def pairsUpper : List Task → List (Task × Task)
  | [] => []
  | t :: rest => rest.map (fun u => (t, u)) ++ pairsUpper rest

/-- Set intersection on the list model (membership filter). -/
def sInter (a b : List String) : List String :=
  a.filter (fun x => b.contains x)

/-- One iteration of the pair loop of `ScheduleTasks` (lines 85-111): when
both tasks have targets, a non-empty target intersection is fatal
(`Tasks %s and %s share targets`); otherwise a file-derived edge is added
in each direction whose `fileDep`/`targets` intersection is non-empty
(the Go code drops the `AddEdge` result here, hence `addEdgeRaw`). -/
def fileEdgeStep (g : Graph) (pr : Task × Task) : Except SchedErr Graph :=
  let t1 := pr.1
  let t2 := pr.2
  if (!t1.targets.isEmpty && !t2.targets.isEmpty)
      && !(sInter t1.targets t2.targets).isEmpty then
    .error (.sharedTargets t1.name t2.name (sInter t1.targets t2.targets))
  else
    let g1 := if !t2.targets.isEmpty && !(sInter t1.fileDep t2.targets).isEmpty
      then g.addEdgeRaw t1.name t2.name else g
    let g2 := if !t1.targets.isEmpty && !(sInter t2.fileDep t1.targets).isEmpty
      then g1.addEdgeRaw t2.name t1.name else g1
    .ok g2

/-- The whole pair loop: target-conflict detection interleaved with
file-derived edge construction, pair by pair. -/
def addFileEdges (g : Graph) (tasks : List Task) : Except SchedErr Graph :=
  (pairsUpper tasks).foldlM fileEdgeStep g

/-- The graph-building and validation phase of `ScheduleTasks`, in source
order: nodes and root edges, then explicit `taskDep` edges, then the
missing-dependency check, then the pair loop (conflicts + file edges). -/
def buildGraphChecked (fs : FS) (tasks : List Task) : Except SchedErr Graph :=
  match addTasksNodes tasks with
  | .error e => .error e
  | .ok g0 =>
    match addTaskDepEdges g0 tasks with
    | .error e => .error e
    | .ok g1 =>
      match checkDeps fs (allTargets tasks) tasks with
      | .error e => .error e
      | .ok _ => addFileEdges g1 tasks

/-- The scheduling phase of `ScheduleTasks` up to and including the
topological sort: the sorted node-name sequence, or the fatal error. -/
def ScheduleTasksCore (fs : FS) (tasks : List Task) : Except SchedErr (List String) :=
  match buildGraphChecked fs tasks with
  | .error e => .error e
  | .ok g =>
    match g.topSort "root" with
    | .error e => .error (.sortFatal e)
    | .ok names => .ok names

/-- The `taskNameMap` of `ScheduleTasks`: root inserted first, then each
task in order, later insertions overwriting earlier ones; a Go map lookup
of an absent key would yield the zero `Task` (whose `nil` sets make the
filter phase panic), modelled as `none`. -/
def taskNameMapL (tasks : List Task) (n : String) : Option Task :=
  match tasks.reverse.find? (fun t => t.name == n) with
  | some t => some t
  | none => if n == "root" then some rootTask else none

/-- Model of `ScheduleTasks` from `src/main.go`: build + validate + sort, then remap
the sorted names through `taskNameMap` into a `[]Task` of length
`len(tasks)+1`, and return `FilterTasks` of it.  When the sorted sequence
does not have exactly `len(tasks)+1` entries, or some entry is not a known
task name, the Go remap/filter phase panics (index out of range writing
`taskResults[i]`, or a `nil`-set dereference in `dirty` on a zero-valued
`Task`); both process-killing panics are modelled as `.panicRemap`. -/
def ScheduleTasks (fs : FS) (st : Store) (tasks : List Task) :
    Except SchedErr (List Task) :=
  match ScheduleTasksCore fs tasks with
  | .error e => .error e
  | .ok names =>
    let picked := names.map (taskNameMapL tasks)
    if names.length == tasks.length + 1 && picked.all Option.isSome then
      .ok (FilterTasks fs st (picked.filterMap id))
    else .error .panicRemap

/-- Non-empty paths over an abstract step relation on node names. -/
inductive RPath (R : String → String → Prop) : String → String → Prop where
  | single {a b : String} : R a b → RPath R a b
  | tail {a b c : String} : R a b → RPath R b c → RPath R a c

/-- The edge relation of a graph, as a `Prop`-valued step relation. -/
def edgeRelP (g : Graph) (a b : String) : Prop := g.hasEdge a b = true

/-- The name `b` occurs before an occurrence of `a` in `l`. -/
def beforeIn (l : List String) (b a : String) : Prop :=
  ∃ l1 l2, l = l1 ++ a :: l2 ∧ b ∈ l1

/-- The postorder invariant: every recorded name comes after all of its
edge targets. -/
def edgesOrdered (g : Graph) (l : List String) : Prop :=
  ∀ a ∈ l, ∀ b ∈ g.edgesOf a, b ∈ l ∧ beforeIn l b a

/-- Bool edge-chain predicate: consecutive elements are graph edges. -/
def chainB (g : Graph) : List String → Bool
  | [] => true
  | [_] => true
  | a :: b :: rest => g.hasEdge a b && chainB g (b :: rest)

/-- The node/root-edge loop, without the (unreachable) error path. -/
def initNodes (tasks : List Task) : Graph :=
  tasks.foldl (fun g t => (g.addNode t.name).addEdgeRaw "root" t.name)
    (Graph.empty.addNode "root")

/-- The `taskDep` edge loop, without the (unreachable) error path. -/
def depEdgesG (g : Graph) (tasks : List Task) : Graph :=
  tasks.foldl (fun g t => t.taskDep.foldl (fun g d => g.addEdgeRaw t.name d) g) g

/-- First edge insertion of one (conflict-free) pair-loop iteration. -/
def pureFileStepA (g : Graph) (pr : Task × Task) : Graph :=
  if !pr.2.targets.isEmpty && !(sInter pr.1.fileDep pr.2.targets).isEmpty
  then g.addEdgeRaw pr.1.name pr.2.name else g

/-- Second edge insertion of one (conflict-free) pair-loop iteration. -/
def pureFileStepB (g : Graph) (pr : Task × Task) : Graph :=
  if !pr.1.targets.isEmpty && !(sInter pr.2.fileDep pr.1.targets).isEmpty
  then g.addEdgeRaw pr.2.name pr.1.name else g

/-- One pair-loop iteration, edges only (valid when the pair has no target
conflict). -/
def pureFileStep (g : Graph) (pr : Task × Task) : Graph :=
  pureFileStepB (pureFileStepA g pr) pr

/-- The file-derived edges of the pair loop, without conflicts. -/
def fileEdgesG (g : Graph) (tasks : List Task) : Graph :=
  (pairsUpper tasks).foldl pureFileStep g

/-- The target-conflict test of one pair-loop iteration. -/
def conflictB (pr : Task × Task) : Bool :=
  (!pr.1.targets.isEmpty && !pr.2.targets.isEmpty)
    && !(sInter pr.1.targets pr.2.targets).isEmpty

/-- The fully constructed dependency graph (valid task sets). -/
def builtG (tasks : List Task) : Graph :=
  fileEdgesG (depEdgesG (initNodes tasks) tasks) tasks

/-- The dependency relation declared by a task set, as the spec describes
it: explicit `taskDep` edges, plus a file-derived edge in either direction
between the two components of every distinct-index pair. -/
def TaskEdge (tasks : List Task) (a b : String) : Prop :=
  (∃ t ∈ tasks, a = t.name ∧ b ∈ t.taskDep) ∨
  (∃ pr ∈ pairsUpper tasks,
    (a = pr.1.name ∧ b = pr.2.name ∧ sInter pr.1.fileDep pr.2.targets ≠ []) ∨
    (a = pr.2.name ∧ b = pr.1.name ∧ sInter pr.2.fileDep pr.1.targets ≠ []))

/-- Modelled from the spec: fingerprint equality (§3) — two fingerprints
are equal iff their path sets and per-path digests are identical, i.e. they
agree as partial maps on every path. -/
def FingerprintsEq (old cur : List (String × String)) : Prop :=
  ∀ k, lookupA old k = lookupA cur k

/-- Go maps cannot hold duplicate keys: a well-formed store only holds
association lists with distinct keys. -/
def StoreWF (st : Store) : Prop :=
  ∀ n l, st n = some l → (l.map Prod.fst).Nodup

/-- Model of `UpdateDepData` folded over a task list (the caller's commit loop in
`main`). -/
def commitAll (fs : FS) (st : Store) (l : List Task) : Store :=
  l.foldl (fun st t => UpdateDepData fs st t) st

/-- All edges of a graph as explicit pairs. -/
def edgePairs (g : Graph) : List (String × String) :=
  g.nodes.flatMap (fun p => p.2.map (fun b => (p.1, b)))

/-- The empty filesystem: no file exists. -/
def fsEmpty : FS := fun _ => none

/-- The empty store: no persisted record. -/
def stEmpty : Store := fun _ => none

/-- A filesystem with files `f` and `o`. -/
def fs4 : FS := fun p => if p == "f" then some "x" else if p == "o" then some "y" else none

def taskB1 : Task := { name := "b", fileDep := [], targets := ["f1"], taskDep := [] }

def taskA1 : Task := { name := "a", fileDep := ["f1"], targets := [], taskDep := [] }

/-- The graph `ScheduleTasks` builds for `[taskB1, taskA1]`. -/
def gExample : Graph := ⟨[("root", ["b", "a"]), ("b", []), ("a", ["b"])]⟩

def rkExample : String → Nat := fun s => if s = "root" then 2 else if s = "a" then 1 else 0

/-- A task that reads its own target. -/
def taskSelf : Task := { name := "s", fileDep := ["f"], targets := ["f"], taskDep := [] }

def taskC1 : Task := { name := "a", fileDep := [], targets := [], taskDep := ["b"] }

def taskC2 : Task := { name := "b", fileDep := [], targets := [], taskDep := ["a"] }

def taskX : Task := { name := "x", fileDep := [], targets := ["o"], taskDep := [] }

def taskY : Task := { name := "y", fileDep := ["m"], targets := ["o"], taskDep := [] }

def taskY2 : Task := { name := "y", fileDep := [], targets := ["o"], taskDep := [] }

def taskM : Task := { name := "a", fileDep := ["missing"], targets := [], taskDep := [] }

def taskDup : Task := { name := "a", fileDep := [], targets := [], taskDep := [] }

/-- A task with a target that does not exist on `fsEmpty`. -/
def taskT4 : Task := { name := "t", fileDep := [], targets := ["o"], taskDep := [] }

/-- A task whose input `f` and target `o` both exist on `fs4`. -/
def task4 : Task := { name := "a", fileDep := ["f"], targets := ["o"], taskDep := [] }

/-- A task with one existing (`f`) and one missing (`g`) file dependency. -/
def taskW : Task := { name := "w", fileDep := ["f", "g"], targets := [], taskDep := [] }

/-- Modelled from the spec: the dependency relation exactly as §3 words it —
edge rule 2 (`B ∈ A.taskDep`) and rule 3 ("task A → task B whenever some
target of B is a file dependency of A"), with A and B ranging over all
tasks, including A = B. -/
def SpecEdge (tasks : List Task) (a b : String) : Prop :=
  (∃ t ∈ tasks, a = t.name ∧ b ∈ t.taskDep) ∨
  (∃ t1 ∈ tasks, ∃ t2 ∈ tasks,
    a = t1.name ∧ b = t2.name ∧ sInter t1.fileDep t2.targets ≠ [])

/-! ### Theorems -/

theorem containsNode_iff (g : Graph) (n : String) :
    g.containsNode n = true ↔ ∃ es, (n, es) ∈ g.nodes := by
  unfold Graph.containsNode
  rw [List.any_eq_true]
  constructor
  · rintro ⟨p, hp, hb⟩
    exact ⟨p.2, by simpa using (show p.1 = n by simpa using hb) ▸ hp⟩
  · rintro ⟨es, hm⟩
    exact ⟨(n, es), hm, by simp⟩

theorem edgesOf_addNode (g : Graph) (n x : String) :
    (g.addNode n).edgesOf x = g.edgesOf x := by
  unfold Graph.addNode
  split
  · rfl
  · rename_i hnc
    unfold Graph.edgesOf
    rw [List.find?_append]
    cases hf : g.nodes.find? (fun p => p.1 == x) with
    | some p => simp [Option.or]
    | none =>
      by_cases hx : n = x
      · subst hx
        simp [Option.or, List.find?]
      · have hb : (n == x) = false := by simp [hx]
        simp [Option.or, List.find?, hb]

theorem containsNode_addNode (g : Graph) (n x : String) :
    (g.addNode n).containsNode x = (g.containsNode x || x == n) := by
  unfold Graph.addNode
  split
  · rename_i hc
    by_cases hx : x = n
    · subst hx
      simp [hc]
    · simp [hx]
  · unfold Graph.containsNode
    rw [List.any_append]
    by_cases hx : x = n
    · subst hx
      simp [List.any]
    · have h1 : (n == x) = false := by simp [Ne.symm hx]
      have h2 : (x == n) = false := by simp [hx]
      simp [List.any, h1, h2]

theorem edgesOf_addEdgeRaw (g : Graph) (a b x : String) :
    (g.addEdgeRaw a b).edgesOf x =
      if x = a ∧ g.containsNode a = true then
        (if (g.edgesOf x).contains b then g.edgesOf x else g.edgesOf x ++ [b])
      else g.edgesOf x := by
  have hpreserve : ∀ p : String × List String,
      ((fun p : String × List String => p.1 == x) ∘
        (fun p : String × List String =>
          if p.1 == a then (p.1, if p.2.contains b then p.2 else p.2 ++ [b]) else p)) p
        = (p.1 == x) := by
    intro p
    by_cases hpa : p.1 = a
    · simp [hpa]
    · simp [hpa]
  have hL : (g.addEdgeRaw a b).edgesOf x =
      match (g.nodes.find? (fun p => p.1 == x)).map
        (fun p : String × List String =>
          if p.1 == a then (p.1, if p.2.contains b then p.2 else p.2 ++ [b]) else p) with
      | some q => q.2
      | none => [] := by
    unfold Graph.addEdgeRaw Graph.edgesOf
    rw [List.find?_map, funext hpreserve]
  have hR : g.edgesOf x =
      match g.nodes.find? (fun p => p.1 == x) with
      | some q => q.2
      | none => [] := rfl
  cases hf : g.nodes.find? (fun p => p.1 == x) with
  | none =>
    have hcx : ¬ (x = a ∧ g.containsNode a = true) := by
      rintro ⟨rfl, hca⟩
      rcases (containsNode_iff g x).mp hca with ⟨es, hm⟩
      rw [List.find?_eq_none] at hf
      exact absurd (by simp : ((x, es).1 == x) = true) (by simpa using hf (x, es) hm)
    rw [hL, hf, if_neg hcx, hR, hf]
    simp
  | some p =>
    have hx1 : p.1 = x := by simpa using List.find?_some hf
    rw [hL, hf, hR, hf]
    simp only [Option.map_some]
    by_cases hxa : x = a
    · have hca : g.containsNode a = true := by
        rw [containsNode_iff]
        refine ⟨p.2, ?_⟩
        have hm := List.mem_of_find?_eq_some hf
        rwa [show p = (a, p.2) from by rw [← hxa, ← hx1]] at hm
      have hb : (p.1 == a) = true := by simp [hx1, hxa]
      simp [hb, hxa, hca, hx1]
    · have hb : (p.1 == a) = false := by simp [hx1, hxa]
      simp [hb, hxa, hx1]

theorem containsNode_addEdgeRaw (g : Graph) (a b x : String) :
    (g.addEdgeRaw a b).containsNode x = g.containsNode x := by
  unfold Graph.addEdgeRaw Graph.containsNode
  rw [List.any_map]
  have hpreserve : ((fun p : String × List String => p.1 == x) ∘
      (fun p : String × List String =>
        if p.1 == a then (p.1, if p.2.contains b then p.2 else p.2 ++ [b]) else p))
      = (fun p : String × List String => p.1 == x) := by
    funext p
    by_cases hpa : p.1 = a
    · simp [hpa]
    · simp [hpa]
  rw [hpreserve]

theorem hasEdge_addNode (g : Graph) (n x y : String) :
    (g.addNode n).hasEdge x y = g.hasEdge x y := by
  unfold Graph.hasEdge
  rw [edgesOf_addNode]

theorem hasEdge_addEdgeRaw_self (g : Graph) (a b : String)
    (hc : g.containsNode a = true) : (g.addEdgeRaw a b).hasEdge a b = true := by
  unfold Graph.hasEdge
  rw [edgesOf_addEdgeRaw, if_pos (And.intro rfl hc)]
  by_cases hcb : (g.edgesOf a).contains b = true
  · rw [if_pos hcb]
    exact hcb
  · rw [if_neg hcb]
    simp

theorem hasEdge_addEdgeRaw_mono (g : Graph) (a b x y : String)
    (h : g.hasEdge x y = true) : (g.addEdgeRaw a b).hasEdge x y = true := by
  unfold Graph.hasEdge at *
  rw [edgesOf_addEdgeRaw]
  split
  · split
    · exact h
    · simp only [List.contains_iff_exists_mem_beq] at h ⊢
      rcases h with ⟨z, hz, hb⟩
      exact ⟨z, List.mem_append_left _ hz, hb⟩
  · exact h

theorem hasEdge_addEdgeRaw_src (g : Graph) (a b x y : String)
    (h : (g.addEdgeRaw a b).hasEdge x y = true) :
    g.hasEdge x y = true ∨ (x = a ∧ y = b) := by
  unfold Graph.hasEdge at *
  rw [edgesOf_addEdgeRaw] at h
  by_cases hcase : x = a ∧ g.containsNode a = true
  · rw [if_pos hcase] at h
    rcases hcase with ⟨hxa, _⟩
    split at h
    · exact Or.inl h
    · simp only [List.contains_iff_exists_mem_beq] at h ⊢
      rcases h with ⟨z, hz, hb⟩
      rcases List.mem_append.mp hz with h1 | h2
      · exact Or.inl ⟨z, h1, hb⟩
      · right
        refine ⟨hxa, ?_⟩
        have : z = b := by simpa using h2
        subst this
        simpa using hb
  · rw [if_neg hcase] at h
    exact Or.inl h

theorem mem_nameUniv_of_edge (g : Graph) (x y : String)
    (h : y ∈ g.edgesOf x) : y ∈ g.nameUniv := by
  unfold Graph.edgesOf at h
  unfold Graph.nameUniv
  cases hf : g.nodes.find? (fun p => p.1 == x) with
  | none => rw [hf] at h; cases h
  | some p =>
    rw [hf] at h
    refine List.mem_append_right _ ?_
    rw [List.mem_flatMap]
    exact ⟨p, List.mem_of_find?_eq_some hf, h⟩

theorem visitD_zero (g : Graph) (name : String) (results visited : List String) :
    visitD g 0 name results visited = .error .fuelOut := rfl

theorem visitD_succ (g : Graph) (fuel : Nat) (name : String)
    (results visited : List String) :
    visitD g (fuel + 1) name results visited =
      if visited.contains name then .error (.cycleFound (cycSuffix visited name))
      else
        match (g.edgesOf name).foldlM
            (fun r c => visitD g fuel c r (visited ++ [name])) results with
        | .error e => .error e
        | .ok r1 => .ok (osAdd r1 name) := rfl

/-- A nodup list has no more elements than any list containing it. -/
theorem nodup_length_le (l l' : List String) (h : l.Nodup) (hs : l ⊆ l') :
    l.length ≤ l'.length := by
  classical
  calc l.length = l.toFinset.card := (List.toFinset_card_of_nodup h).symm
  _ ≤ l'.toFinset.card := Finset.card_le_card (by intro x hx; simp at hx ⊢; exact hs hx)
  _ ≤ l'.length := l'.toFinset_card_le

theorem rpath_mono {R S : String → String → Prop} (hRS : ∀ a b, R a b → S a b) :
    ∀ {a b : String}, RPath R a b → RPath S a b := by
  intro a b h
  induction h with
  | single h => exact .single (hRS _ _ h)
  | tail h _ ih => exact .tail (hRS _ _ h) ih

/-- Row version of the fuel bound: folding the visit over a sibling list
cannot run out of fuel when each single visit cannot. -/
theorem rowD_no_fuelOut (g : Graph) (U : List String) (fuel : Nat)
    (hP : ∀ (name : String) (results visited : List String),
      name ∈ U → (∀ v ∈ visited, v ∈ U) → visited.Nodup →
      U.length + 1 ≤ fuel + visited.length →
      visitD g fuel name results visited ≠ .error .fuelOut) :
    ∀ (names results visited : List String),
      (∀ n ∈ names, n ∈ U) → (∀ v ∈ visited, v ∈ U) → visited.Nodup →
      U.length + 1 ≤ fuel + visited.length →
      names.foldlM (fun r c => visitD g fuel c r visited) results
        ≠ .error .fuelOut := by
  intro names
  induction names with
  | nil =>
    intro results visited _ _ _ _ hcontra
    have h2 : (Except.ok results : Except TopErr (List String))
        = .error .fuelOut := hcontra
    cases h2
  | cons c cs IH =>
    intro results visited hns hvs hnd hlen
    rw [List.foldlM_cons]
    cases hc : visitD g fuel c results visited with
    | error e =>
      intro hcontra
      have h2 : (Except.error e : Except TopErr (List String)) = .error .fuelOut := hcontra
      have h3 : e = .fuelOut := by cases h2; rfl
      subst h3
      exact hP c results visited (hns c (by simp)) hvs hnd hlen hc
    | ok r =>
      intro hcontra
      have h2 : cs.foldlM (fun r c => visitD g fuel c r visited) r
          = .error .fuelOut := hcontra
      exact IH r visited (fun n hn => hns n (by simp [hn])) hvs hnd hlen h2

/-- With fuel exceeding the number of not-yet-visited names of a superset
`U` closed under edges, the visit can never run out of fuel: every descent
pushes a fresh name of `U` onto the nodup path. -/
theorem visitD_no_fuelOut (g : Graph) (U : List String)
    (hU : ∀ n y, y ∈ g.edgesOf n → y ∈ U) :
    ∀ (fuel : Nat) (name : String) (results visited : List String),
    name ∈ U → (∀ v ∈ visited, v ∈ U) → visited.Nodup →
    U.length + 1 ≤ fuel + visited.length →
    visitD g fuel name results visited ≠ .error .fuelOut := by
  intro fuel
  induction fuel with
  | zero =>
    intro name results visited _ hvs hnd hlen
    exfalso
    have hle : visited.length ≤ U.length := nodup_length_le _ _ hnd hvs
    omega
  | succ fuel IH =>
    intro name results visited hn hvs hnd hlen
    rw [visitD_succ]
    by_cases hcn : visited.contains name = true
    · rw [if_pos hcn]
      simp
    · rw [if_neg hcn]
      have hnm : name ∉ visited := by simpa using hcn
      have hrow := rowD_no_fuelOut g U fuel IH (g.edgesOf name) results (visited ++ [name])
        (fun n hnn => hU name n hnn)
        (fun v hv => by
          rcases List.mem_append.mp hv with h1 | h2
          · exact hvs v h1
          · exact (by simpa using h2 : v = name) ▸ hn)
        (by simp [List.nodup_append, hnd, hnm])
        (by simp only [List.length_append, List.length_cons, List.length_nil]; omega)
      cases hr : (g.edgesOf name).foldlM
          (fun r c => visitD g fuel c r (visited ++ [name])) results with
      | error e =>
        rw [hr] at hrow
        intro hcontra
        have h2 : (Except.error e : Except TopErr (List String)) = .error .fuelOut := hcontra
        exact hrow h2
      | ok r1 =>
        intro hcontra
        have h2 : (Except.ok (osAdd r1 name) : Except TopErr (List String))
            = .error .fuelOut := hcontra
        cases h2

theorem hasEdge_iff_mem (g : Graph) (a b : String) :
    g.hasEdge a b = true ↔ b ∈ g.edgesOf a := by
  unfold Graph.hasEdge
  simp

theorem beforeIn_append (l ext : List String) (b a : String)
    (h : beforeIn l b a) : beforeIn (l ++ ext) b a := by
  rcases h with ⟨l1, l2, hsplit, hb⟩
  exact ⟨l1, l2 ++ ext, by rw [hsplit]; simp, hb⟩

theorem mem_osAdd_self (l : List String) (n : String) : n ∈ osAdd l n := by
  unfold osAdd
  split
  · rename_i h
    simpa using h
  · simp

theorem mem_osAdd_of_mem (l : List String) (n x : String) (h : x ∈ l) :
    x ∈ osAdd l n := by
  unfold osAdd
  split
  · exact h
  · simp [h]

theorem nodup_osAdd (l : List String) (n : String) (h : l.Nodup) :
    (osAdd l n).Nodup := by
  unfold osAdd
  split
  · exact h
  · rename_i hc
    have : n ∉ l := by simpa using hc
    simp [List.nodup_append, h, this]

theorem mem_of_mem_osAdd (l : List String) (n x : String) (h : x ∈ osAdd l n) :
    x ∈ l ∨ x = n := by
  unfold osAdd at h
  split at h
  · exact Or.inl h
  · rcases List.mem_append.mp h with h1 | h2
    · exact Or.inl h1
    · exact Or.inr (by simpa using h2)

/-- Row version of ordering soundness. -/
theorem rowD_ok_ordered (g : Graph) (fuel : Nat)
    (hP : ∀ (name : String) (results visited out : List String),
      visitD g fuel name results visited = .ok out → edgesOrdered g results →
      edgesOrdered g out ∧ (∃ ext, out = results ++ ext) ∧ name ∈ out) :
    ∀ (names results visited out : List String),
      names.foldlM (fun r c => visitD g fuel c r visited) results = .ok out →
      edgesOrdered g results →
      edgesOrdered g out ∧ (∃ ext, out = results ++ ext) ∧ ∀ n ∈ names, n ∈ out := by
  intro names
  induction names with
  | nil =>
    intro results visited out h hord
    have h2 : (Except.ok results : Except TopErr (List String)) = .ok out := h
    cases h2
    exact ⟨hord, ⟨[], by simp⟩, by simp⟩
  | cons c cs IH =>
    intro results visited out h hord
    rw [List.foldlM_cons] at h
    cases hc : visitD g fuel c results visited with
    | error e =>
      rw [hc] at h
      have h2 : (Except.error e : Except TopErr (List String)) = .ok out := h
      cases h2
    | ok r1 =>
      rw [hc] at h
      have h2 : cs.foldlM (fun r c => visitD g fuel c r visited) r1 = .ok out := h
      rcases hP c results visited r1 hc hord with ⟨hord1, ⟨e1, he1⟩, hcmem⟩
      rcases IH r1 visited out h2 hord1 with ⟨hordo, ⟨e2, he2⟩, hcs⟩
      refine ⟨hordo, ⟨e1 ++ e2, by rw [he2, he1, List.append_assoc]⟩, ?_⟩
      intro n hn
      rcases List.mem_cons.mp hn with h1 | h1
      · subst h1
        rw [he2]
        exact List.mem_append_left _ hcmem
      · exact hcs n h1

/-- Ordering soundness of the visit: on success the output extends
`results`, contains the visited name, and keeps the postorder invariant
(each recorded name's edge targets are recorded before it). -/
theorem visitD_ok_ordered (g : Graph) :
    ∀ (fuel : Nat) (name : String) (results visited out : List String),
    visitD g fuel name results visited = .ok out →
    edgesOrdered g results →
    edgesOrdered g out ∧ (∃ ext, out = results ++ ext) ∧ name ∈ out := by
  intro fuel
  induction fuel with
  | zero =>
    intro name results visited out h _
    rw [visitD_zero] at h
    cases h
  | succ fuel IH =>
    intro name results visited out h hord
    rw [visitD_succ] at h
    by_cases hcn : visited.contains name = true
    · rw [if_pos hcn] at h
      cases h
    · rw [if_neg hcn] at h
      cases hr : (g.edgesOf name).foldlM
          (fun r c => visitD g fuel c r (visited ++ [name])) results with
      | error e =>
        rw [hr] at h
        have h2 : (Except.error e : Except TopErr (List String)) = .ok out := h
        cases h2
      | ok r1 =>
        rw [hr] at h
        have h2 : (Except.ok (osAdd r1 name) : Except TopErr (List String)) = .ok out := h
        have hout : out = osAdd r1 name := by cases h2; rfl
        rcases rowD_ok_ordered g fuel IH (g.edgesOf name) results (visited ++ [name]) r1
          hr hord with ⟨hord1, ⟨e1, he1⟩, hedges1⟩
        subst hout
        have hord2 : edgesOrdered g (osAdd r1 name) := by
          unfold osAdd
          split
          · exact hord1
          · intro a ha b hb
            rcases List.mem_append.mp ha with h1 | h2
            · rcases hord1 a h1 b hb with ⟨hb1, hbf⟩
              exact ⟨List.mem_append_left _ hb1, beforeIn_append _ _ _ _ hbf⟩
            · have haname : a = name := by simpa using h2
              subst haname
              have hbr1 : b ∈ r1 := hedges1 b hb
              exact ⟨List.mem_append_left _ hbr1, ⟨r1, [], rfl, hbr1⟩⟩
        refine ⟨hord2, ⟨?_, ?_⟩, mem_osAdd_self _ _⟩
        · exact (osAdd r1 name).drop results.length
        · unfold osAdd
          split
          · rw [he1]
            simp [List.drop_left]
          · rw [he1]
            simp [List.drop_left]

/-- Row version of cycle-freedom on success. -/
theorem rowD_ok_no_cycle (g : Graph) (fuel : Nat)
    (hP : ∀ (name : String) (results visited out : List String),
      visitD g fuel name results visited = .ok out →
      ∀ m, (m = name ∨ RPath (edgeRelP g) name m) → ¬ RPath (edgeRelP g) m m) :
    ∀ (names results visited out : List String),
      names.foldlM (fun r c => visitD g fuel c r visited) results = .ok out →
      ∀ n ∈ names, ∀ m, (m = n ∨ RPath (edgeRelP g) n m) → ¬ RPath (edgeRelP g) m m := by
  intro names
  induction names with
  | nil =>
    intro results visited out _ n hn
    cases hn
  | cons c cs IH =>
    intro results visited out h n hn
    rw [List.foldlM_cons] at h
    cases hc : visitD g fuel c results visited with
    | error e =>
      rw [hc] at h
      have h2 : (Except.error e : Except TopErr (List String)) = .ok out := h
      cases h2
    | ok r1 =>
      rw [hc] at h
      have h2 : cs.foldlM (fun r c => visitD g fuel c r visited) r1 = .ok out := h
      rcases List.mem_cons.mp hn with h1 | h1
      · subst h1
        exact hP n results visited r1 hc
      · exact IH r1 visited out h2 n h1

/-- Success soundness for cycles: when the visit of a name succeeds, no
node reachable from (or equal to) it lies on a cycle — the visit
re-explores every child fully, so a reachable cycle would have produced a
path repeat. -/
theorem visitD_ok_no_cycle (g : Graph) :
    ∀ (fuel : Nat) (name : String) (results visited out : List String),
    visitD g fuel name results visited = .ok out →
    ∀ m, (m = name ∨ RPath (edgeRelP g) name m) → ¬ RPath (edgeRelP g) m m := by
  intro fuel
  induction fuel with
  | zero =>
    intro name results visited out h
    rw [visitD_zero] at h
    cases h
  | succ fuel IH =>
    intro name results visited out h m hreach hcyc
    rw [visitD_succ] at h
    by_cases hcn : visited.contains name = true
    · rw [if_pos hcn] at h
      cases h
    · rw [if_neg hcn] at h
      cases hr : (g.edgesOf name).foldlM
          (fun r c => visitD g fuel c r (visited ++ [name])) results with
      | error e =>
        rw [hr] at h
        have h2 : (Except.error e : Except TopErr (List String)) = .ok out := h
        cases h2
      | ok r1 =>
        have IHchild := rowD_ok_no_cycle g fuel IH (g.edgesOf name) results
          (visited ++ [name]) r1 hr
        rcases hreach with hmn | hpath
        · subst hmn
          cases hcyc with
          | single hstep =>
            exact IHchild m ((hasEdge_iff_mem g m m).mp hstep) m (Or.inl rfl)
              (.single hstep)
          | tail hstep hp =>
            rename_i c
            exact IHchild c ((hasEdge_iff_mem g m c).mp hstep) m (Or.inr hp)
              (.tail hstep hp)
        · cases hpath with
          | single hstep =>
            exact IHchild m ((hasEdge_iff_mem g _ m).mp hstep) m (Or.inl rfl) hcyc
          | tail hstep hp =>
            rename_i c
            exact IHchild c ((hasEdge_iff_mem g _ c).mp hstep) m (Or.inr hp) hcyc

theorem chainB_drop_head (g : Graph) (a : String) (t : List String)
    (h : chainB g (a :: t) = true) : chainB g t = true := by
  cases t with
  | nil => rfl
  | cons b t' =>
    have := h
    unfold chainB at this
    exact (Bool.and_eq_true_iff.mp this).2

theorem chainB_suffix (g : Graph) :
    ∀ (l1 l2 : List String), chainB g (l1 ++ l2) = true → chainB g l2 = true := by
  intro l1
  induction l1 with
  | nil => intro l2 h; exact h
  | cons a l1' IH =>
    intro l2 h
    exact IH l2 (chainB_drop_head g a (l1' ++ l2) h)

theorem rpath_snoc {R : String → String → Prop} :
    ∀ {a b c : String}, RPath R a b → R b c → RPath R a c := by
  intro a b c hp hc
  induction hp with
  | single h => exact .tail h (.single hc)
  | tail h _ ih => exact .tail h (ih hc)

theorem rpath_to_getLast (g : Graph) :
    ∀ (l2 : List String) (a v : String), chainB g (a :: l2) = true →
    (a :: l2).getLast? = some v → a = v ∨ RPath (edgeRelP g) a v := by
  intro l2
  induction l2 with
  | nil =>
    intro a v _ hl
    left
    have h0 : ([a] : List String).getLast? = some a := rfl
    rw [h0] at hl
    exact Option.some_inj.mp hl
  | cons b l2' IH =>
    intro a v hc hl
    have hstep : g.hasEdge a b = true := by
      unfold chainB at hc
      exact (Bool.and_eq_true_iff.mp hc).1
    have hc' : chainB g (b :: l2') = true := chainB_drop_head g a (b :: l2') hc
    have hl' : (b :: l2').getLast? = some v := by
      rwa [List.getLast?_cons_cons] at hl
    rcases IH b v hc' hl' with h1 | h2
    · exact Or.inr (.single (h1 ▸ hstep))
    · exact Or.inr (.tail hstep h2)

theorem cycle_of_chain_back (g : Graph) (l2 : List String) (a v : String)
    (hc : chainB g (a :: l2) = true) (hl : (a :: l2).getLast? = some v)
    (hback : edgeRelP g v a) : RPath (edgeRelP g) a a := by
  rcases rpath_to_getLast g l2 a v hc hl with h1 | h2
  · cases h1
    exact .single hback
  · exact rpath_snoc h2 hback

theorem chainB_snoc (g : Graph) :
    ∀ (l : List String) (n : String), chainB g l = true →
    (∀ v, l.getLast? = some v → edgeRelP g v n) → chainB g (l ++ [n]) = true := by
  intro l
  induction l with
  | nil => intro n _ _; rfl
  | cons a t IH =>
    intro n hc hlast
    cases t with
    | nil =>
      have hedge : g.hasEdge a n = true := hlast a rfl
      show chainB g [a, n] = true
      unfold chainB
      simp [hedge, chainB]
    | cons b t' =>
      have h1 : g.hasEdge a b = true ∧ chainB g (b :: t') = true := by
        have := hc
        unfold chainB at this
        exact Bool.and_eq_true_iff.mp this
      have h2 : chainB g ((b :: t') ++ [n]) = true := by
        refine IH n h1.2 ?_
        intro v hv
        refine hlast v ?_
        rwa [List.getLast?_cons_cons]
      show chainB g (a :: b :: (t' ++ [n])) = true
      unfold chainB
      simp only [Bool.and_eq_true_iff]
      exact ⟨h1.1, h2⟩

/-- Row version of cycle-error soundness. -/
theorem rowD_cycle_sound (g : Graph) (fuel : Nat)
    (hP : ∀ (name : String) (results visited : List String) (cyc : List String),
      visitD g fuel name results visited = .error (.cycleFound cyc) →
      chainB g visited = true →
      (∀ v, visited.getLast? = some v → edgeRelP g v name) →
      ∃ m, RPath (edgeRelP g) m m) :
    ∀ (names results visited : List String) (cyc : List String),
      names.foldlM (fun r c => visitD g fuel c r visited) results
        = .error (.cycleFound cyc) →
      chainB g visited = true →
      (∀ n ∈ names, ∀ v, visited.getLast? = some v → edgeRelP g v n) →
      ∃ m, RPath (edgeRelP g) m m := by
  intro names
  induction names with
  | nil =>
    intro results visited cyc h _ _
    have h2 : (Except.ok results : Except TopErr (List String))
        = .error (.cycleFound cyc) := h
    cases h2
  | cons c cs IH =>
    intro results visited cyc h hchain hlastedge
    rw [List.foldlM_cons] at h
    cases hc : visitD g fuel c results visited with
    | error e =>
      rw [hc] at h
      have h2 : (Except.error e : Except TopErr (List String))
          = .error (.cycleFound cyc) := h
      have he : e = .cycleFound cyc := by cases h2; rfl
      subst he
      exact hP c results visited cyc hc hchain
        (fun v hv => hlastedge c (by simp) v hv)
    | ok r1 =>
      rw [hc] at h
      have h2 : cs.foldlM (fun r c => visitD g fuel c r visited) r1
          = .error (.cycleFound cyc) := h
      exact IH r1 visited cyc h2 hchain
        (fun n hn v hv => hlastedge n (by simp [hn]) v hv)

/-- Cycle-error soundness: when the visit reports a cycle, the graph's edge
relation really has one.  The `visited` list is the current path (an edge
chain), and the visited name is an edge target of its last element. -/
theorem visitD_cycle_sound (g : Graph) :
    ∀ (fuel : Nat) (name : String) (results visited : List String) (cyc : List String),
    visitD g fuel name results visited = .error (.cycleFound cyc) →
    chainB g visited = true →
    (∀ v, visited.getLast? = some v → edgeRelP g v name) →
    ∃ m, RPath (edgeRelP g) m m := by
  intro fuel
  induction fuel with
  | zero =>
    intro name results visited cyc h _ _
    rw [visitD_zero] at h
    simp at h
  | succ fuel IH =>
    intro name results visited cyc h hchain hlastedge
    rw [visitD_succ] at h
    by_cases hcn : visited.contains name = true
    · -- the repeat: visited = l1 ++ name :: l2, and the last path element
      -- has an edge back to name, closing a real cycle
      have hmem : name ∈ visited := by simpa using hcn
      rcases List.append_of_mem hmem with ⟨l1, l2, hsplit⟩
      cases hv : visited.getLast? with
      | none =>
        exfalso
        rw [List.getLast?_eq_none_iff] at hv
        rw [hsplit] at hv
        simp at hv
      | some v =>
        have hback : edgeRelP g v name := hlastedge v hv
        have hchain2 : chainB g (name :: l2) = true := by
          refine chainB_suffix g l1 (name :: l2) ?_
          rwa [← hsplit]
        have hlast2 : (name :: l2).getLast? = some v := by
          rw [hsplit] at hv
          rwa [List.getLast?_append_of_ne_nil _ (by simp)] at hv
        exact ⟨name, cycle_of_chain_back g l2 name v hchain2 hlast2 hback⟩
    · rw [if_neg hcn] at h
      cases hr : (g.edgesOf name).foldlM
          (fun r c => visitD g fuel c r (visited ++ [name])) results with
      | error e =>
        rw [hr] at h
        have h2 : (Except.error e : Except TopErr (List String))
            = .error (.cycleFound cyc) := h
        have he : e = .cycleFound cyc := by cases h2; rfl
        subst he
        refine rowD_cycle_sound g fuel IH (g.edgesOf name) results (visited ++ [name])
          cyc hr ?_ ?_
        · exact chainB_snoc g visited name hchain (fun v hv => hlastedge v hv)
        · intro c hc v hv
          have hvn : v = name := by
            have h0 : (visited ++ [name]).getLast? = some name := by simp
            rw [h0] at hv
            exact (Option.some_inj.mp hv).symm
          subst hvn
          exact (hasEdge_iff_mem g v c).mpr hc
      | ok r1 =>
        rw [hr] at h
        have h2 : (Except.ok (osAdd r1 name) : Except TopErr (List String))
            = .error (.cycleFound cyc) := h
        cases h2

/-- Row version of the scope/distinctness invariant. -/
theorem rowD_ok_scope (g : Graph) (U : List String) (fuel : Nat)
    (hP : ∀ (name : String) (results visited out : List String),
      visitD g fuel name results visited = .ok out →
      results.Nodup → name ∈ U →
      out.Nodup ∧ ∀ x ∈ out, x ∈ results ∨ x ∈ U) :
    ∀ (names results visited out : List String),
      names.foldlM (fun r c => visitD g fuel c r visited) results = .ok out →
      results.Nodup → (∀ n ∈ names, n ∈ U) →
      out.Nodup ∧ ∀ x ∈ out, x ∈ results ∨ x ∈ U := by
  intro names
  induction names with
  | nil =>
    intro results visited out h hnd _
    have h2 : (Except.ok results : Except TopErr (List String)) = .ok out := h
    cases h2
    exact ⟨hnd, fun x hx => Or.inl hx⟩
  | cons c cs IH =>
    intro results visited out h hnd hns
    rw [List.foldlM_cons] at h
    cases hc : visitD g fuel c results visited with
    | error e =>
      rw [hc] at h
      have h2 : (Except.error e : Except TopErr (List String)) = .ok out := h
      cases h2
    | ok r1 =>
      rw [hc] at h
      have h2 : cs.foldlM (fun r c => visitD g fuel c r visited) r1 = .ok out := h
      rcases hP c results visited r1 hc hnd (hns c (by simp)) with ⟨hnd1, hsc1⟩
      rcases IH r1 visited out h2 hnd1 (fun n hn => hns n (by simp [hn]))
        with ⟨hndo, hsco⟩
      refine ⟨hndo, ?_⟩
      intro x hx
      rcases hsco x hx with h3 | h4
      · exact hsc1 x h3
      · exact Or.inr h4

/-- Scope and distinctness of the visit output: the results stay nodup and
every recorded name comes from the initial results or an edge-closed
superset `U` containing the visited name. -/
theorem visitD_ok_scope (g : Graph) (U : List String)
    (hU : ∀ n y, y ∈ g.edgesOf n → y ∈ U) :
    ∀ (fuel : Nat) (name : String) (results visited out : List String),
    visitD g fuel name results visited = .ok out →
    results.Nodup → name ∈ U →
    out.Nodup ∧ ∀ x ∈ out, x ∈ results ∨ x ∈ U := by
  intro fuel
  induction fuel with
  | zero =>
    intro name results visited out h _ _
    rw [visitD_zero] at h
    cases h
  | succ fuel IH =>
    intro name results visited out h hnd hnU
    rw [visitD_succ] at h
    by_cases hcn : visited.contains name = true
    · rw [if_pos hcn] at h
      cases h
    · rw [if_neg hcn] at h
      cases hr : (g.edgesOf name).foldlM
          (fun r c => visitD g fuel c r (visited ++ [name])) results with
      | error e =>
        rw [hr] at h
        have h2 : (Except.error e : Except TopErr (List String)) = .ok out := h
        cases h2
      | ok r1 =>
        rw [hr] at h
        have h2 : (Except.ok (osAdd r1 name) : Except TopErr (List String)) = .ok out := h
        have hout : out = osAdd r1 name := by cases h2; rfl
        subst hout
        rcases rowD_ok_scope g U fuel IH (g.edgesOf name) results (visited ++ [name]) r1
          hr hnd (fun n hn => hU name n hn) with ⟨hnd1, hsc1⟩
        refine ⟨nodup_osAdd _ _ hnd1, ?_⟩
        intro x hx
        rcases mem_of_mem_osAdd r1 name x hx with h3 | h4
        · exact hsc1 x h3
        · subst h4
          exact Or.inr hnU

theorem topSort_no_fuelOut (g : Graph) (root : String) :
    g.topSort root ≠ .error .fuelOut := by
  unfold Graph.topSort
  refine visitD_no_fuelOut g (root :: g.nameUniv)
    (fun n y hy => List.mem_cons_of_mem _ (mem_nameUniv_of_edge g n y hy))
    _ root _ _ (by simp) ?_ ?_ ?_
  · intro v hv
    cases hv
  · exact List.nodup_nil
  · simp

theorem topSort_ok_ordered (g : Graph) (root : String) (out : List String)
    (h : g.topSort root = .ok out) :
    edgesOrdered g out ∧ root ∈ out := by
  unfold Graph.topSort at h
  rcases visitD_ok_ordered g _ root [] [] out h
    (fun a ha => absurd ha (List.not_mem_nil a)) with ⟨hord, _, hmem⟩
  exact ⟨hord, hmem⟩

theorem topSort_ok_no_cycle (g : Graph) (root : String) (out : List String)
    (h : g.topSort root = .ok out) :
    ∀ m, (m = root ∨ RPath (edgeRelP g) root m) → ¬ RPath (edgeRelP g) m m := by
  unfold Graph.topSort at h
  exact visitD_ok_no_cycle g _ root [] [] out h

theorem topSort_cycle_sound (g : Graph) (root : String) (cyc : List String)
    (h : g.topSort root = .error (.cycleFound cyc)) :
    ∃ m, RPath (edgeRelP g) m m := by
  unfold Graph.topSort at h
  refine visitD_cycle_sound g _ root [] [] cyc h rfl ?_
  intro v hv
  cases hv

theorem topSort_ok_scope (g : Graph) (root : String) (out : List String)
    (h : g.topSort root = .ok out) :
    out.Nodup ∧ ∀ x ∈ out, x ∈ root :: g.nameUniv := by
  unfold Graph.topSort at h
  rcases visitD_ok_scope g (root :: g.nameUniv)
    (fun n y hy => List.mem_cons_of_mem _ (mem_nameUniv_of_edge g n y hy))
    _ root [] [] out h List.nodup_nil (by simp) with ⟨hnd, hsc⟩
  refine ⟨hnd, ?_⟩
  intro x hx
  rcases hsc x hx with h1 | h2
  · cases h1
  · exact h2

theorem mem_pairsUpper : ∀ (l : List Task) (pr : Task × Task),
    pr ∈ pairsUpper l → pr.1 ∈ l ∧ pr.2 ∈ l := by
  intro l
  induction l with
  | nil =>
    intro pr h
    cases h
  | cons t rest IH =>
    intro pr h
    unfold pairsUpper at h
    rcases List.mem_append.mp h with h1 | h2
    · rcases List.mem_map.mp h1 with ⟨u, hu, hpr⟩
      subst hpr
      exact ⟨by simp, by simp [hu]⟩
    · rcases IH pr h2 with ⟨ha, hb⟩
      exact ⟨by simp [ha], by simp [hb]⟩

theorem containsNode_initNodes_fold : ∀ (tasks : List Task) (g : Graph) (x : String),
    (tasks.foldl (fun g t => (g.addNode t.name).addEdgeRaw "root" t.name) g).containsNode x
      = (g.containsNode x || tasks.any (fun t => x == t.name)) := by
  intro tasks
  induction tasks with
  | nil =>
    intro g x
    simp
  | cons t rest IH =>
    intro g x
    rw [List.foldl_cons, IH, containsNode_addEdgeRaw, containsNode_addNode]
    cases hgx : g.containsNode x <;> simp [Bool.or_assoc]

theorem containsNode_initNodes (tasks : List Task) (x : String) :
    (initNodes tasks).containsNode x
      = ((x == "root") || tasks.any (fun t => x == t.name)) := by
  unfold initNodes
  rw [containsNode_initNodes_fold, containsNode_addNode]
  unfold Graph.empty Graph.containsNode
  simp

theorem containsNode_foldl_addEdgeRaw (nm : String) : ∀ (deps : List String) (g : Graph)
    (x : String), (deps.foldl (fun g d => g.addEdgeRaw nm d) g).containsNode x
      = g.containsNode x := by
  intro deps
  induction deps with
  | nil =>
    intro g x
    rfl
  | cons d ds IHd =>
    intro g x
    rw [List.foldl_cons, IHd, containsNode_addEdgeRaw]

theorem containsNode_depEdgesG (g : Graph) (tasks : List Task) (x : String) :
    (depEdgesG g tasks).containsNode x = g.containsNode x := by
  unfold depEdgesG
  induction tasks generalizing g with
  | nil => rfl
  | cons t rest IH =>
    rw [List.foldl_cons, IH, containsNode_foldl_addEdgeRaw]

theorem containsNode_pureFileStepA (g : Graph) (pr : Task × Task) (x : String) :
    (pureFileStepA g pr).containsNode x = g.containsNode x := by
  unfold pureFileStepA
  split <;> simp [containsNode_addEdgeRaw]

theorem containsNode_pureFileStep (g : Graph) (pr : Task × Task) (x : String) :
    (pureFileStep g pr).containsNode x = g.containsNode x := by
  unfold pureFileStep pureFileStepA pureFileStepB
  split <;> split <;> simp [containsNode_addEdgeRaw]

theorem containsNode_fileEdgesG (g : Graph) (tasks : List Task) (x : String) :
    (fileEdgesG g tasks).containsNode x = g.containsNode x := by
  unfold fileEdgesG
  generalize pairsUpper tasks = l
  induction l generalizing g with
  | nil => rfl
  | cons pr rest IH =>
    rw [List.foldl_cons, IH, containsNode_pureFileStep]

theorem addTasksNodes_fold : ∀ (tasks : List Task) (g : Graph),
    g.containsNode "root" = true →
    tasks.foldlM
      (fun g t =>
        match (g.addNode t.name).addEdgeE "root" t.name with
        | .ok g' => .ok g'
        | .error a => .error (.edgeFatal a))
      g = (.ok (tasks.foldl (fun g t => (g.addNode t.name).addEdgeRaw "root" t.name) g) :
        Except SchedErr Graph) := by
  intro tasks
  induction tasks with
  | nil =>
    intro g _
    rfl
  | cons t rest IH =>
    intro g hroot
    rw [List.foldlM_cons]
    have hroot' : (g.addNode t.name).containsNode "root" = true := by
      rw [containsNode_addNode, hroot]
      rfl
    have hstep : (g.addNode t.name).addEdgeE "root" t.name
        = .ok ((g.addNode t.name).addEdgeRaw "root" t.name) := by
      unfold Graph.addEdgeE
      rw [if_pos hroot']
    rw [hstep]
    show rest.foldlM _ ((g.addNode t.name).addEdgeRaw "root" t.name) = _
    rw [IH _ (by rw [containsNode_addEdgeRaw]; exact hroot'), List.foldl_cons]

theorem addTasksNodes_eq (tasks : List Task) :
    addTasksNodes tasks = .ok (initNodes tasks) := by
  unfold addTasksNodes initNodes
  exact addTasksNodes_fold tasks _ (by unfold Graph.addNode Graph.empty; simp [Graph.containsNode])

theorem addDepInner_fold : ∀ (deps : List String) (g : Graph) (nm : String),
    g.containsNode nm = true →
    deps.foldlM
      (fun g d =>
        match g.addEdgeE nm d with
        | .ok g' => .ok g'
        | .error a => .error (.edgeFatal a))
      g = (.ok (deps.foldl (fun g d => g.addEdgeRaw nm d) g) : Except SchedErr Graph) := by
  intro deps
  induction deps with
  | nil =>
    intro g nm _
    rfl
  | cons d ds IH =>
    intro g nm hnm
    rw [List.foldlM_cons]
    have hstep : g.addEdgeE nm d = .ok (g.addEdgeRaw nm d) := by
      unfold Graph.addEdgeE
      rw [if_pos hnm]
    rw [hstep]
    show ds.foldlM _ (g.addEdgeRaw nm d) = _
    rw [IH _ _ (by rw [containsNode_addEdgeRaw]; exact hnm), List.foldl_cons]

theorem addTaskDepEdges_eq : ∀ (tasks : List Task) (g : Graph),
    (∀ t ∈ tasks, g.containsNode t.name = true) →
    addTaskDepEdges g tasks = .ok (depEdgesG g tasks) := by
  intro tasks
  induction tasks with
  | nil =>
    intro g _
    rfl
  | cons t rest IH =>
    intro g hall
    unfold addTaskDepEdges depEdgesG
    rw [List.foldlM_cons, addDepInner_fold t.taskDep g t.name (hall t (by simp))]
    show addTaskDepEdges _ rest = _
    rw [List.foldl_cons]
    refine IH _ ?_
    intro u hu
    rw [containsNode_foldl_addEdgeRaw]
    exact hall u (by simp [hu])

theorem hasEdge_foldl_addEdgeRaw_mono (nm : String) : ∀ (deps : List String) (g : Graph)
    (x y : String), g.hasEdge x y = true →
    (deps.foldl (fun g d => g.addEdgeRaw nm d) g).hasEdge x y = true := by
  intro deps
  induction deps with
  | nil =>
    intro g x y h
    exact h
  | cons d ds IH =>
    intro g x y h
    rw [List.foldl_cons]
    exact IH _ _ _ (hasEdge_addEdgeRaw_mono g nm d x y h)

theorem hasEdge_foldl_addEdgeRaw_src (nm : String) : ∀ (deps : List String) (g : Graph)
    (x y : String), (deps.foldl (fun g d => g.addEdgeRaw nm d) g).hasEdge x y = true →
    g.hasEdge x y = true ∨ x = nm := by
  intro deps
  induction deps with
  | nil =>
    intro g x y h
    exact Or.inl h
  | cons d ds IH =>
    intro g x y h
    rw [List.foldl_cons] at h
    rcases IH _ _ _ h with h1 | h2
    · rcases hasEdge_addEdgeRaw_src g nm d x y h1 with h3 | h4
      · exact Or.inl h3
      · exact Or.inr h4.1
    · exact Or.inr h2

theorem hasEdge_foldl_addEdgeRaw_self (nm : String) : ∀ (deps : List String) (g : Graph),
    g.containsNode nm = true → ∀ d ∈ deps,
    (deps.foldl (fun g d => g.addEdgeRaw nm d) g).hasEdge nm d = true := by
  intro deps
  induction deps with
  | nil =>
    intro g _ d hd
    cases hd
  | cons d0 ds IH =>
    intro g hc d hd
    rw [List.foldl_cons]
    rcases List.mem_cons.mp hd with h1 | h2
    · subst h1
      exact hasEdge_foldl_addEdgeRaw_mono nm ds _ _ _
        (hasEdge_addEdgeRaw_self g nm d hc)
    · exact IH _ (by rw [containsNode_addEdgeRaw]; exact hc) d h2

theorem hasEdge_initFold_mono : ∀ (tasks : List Task) (g : Graph) (x y : String),
    g.hasEdge x y = true →
    (tasks.foldl (fun g t => (g.addNode t.name).addEdgeRaw "root" t.name) g).hasEdge x y
      = true := by
  intro tasks
  induction tasks with
  | nil =>
    intro g x y h
    exact h
  | cons t rest IH =>
    intro g x y h
    rw [List.foldl_cons]
    refine IH _ _ _ ?_
    refine hasEdge_addEdgeRaw_mono _ _ _ _ _ ?_
    rw [hasEdge_addNode]
    exact h

theorem initFold_root_edges : ∀ (tasks : List Task) (g : Graph),
    g.containsNode "root" = true → ∀ t ∈ tasks,
    (tasks.foldl (fun g t => (g.addNode t.name).addEdgeRaw "root" t.name) g).hasEdge
      "root" t.name = true := by
  intro tasks
  induction tasks with
  | nil =>
    intro g _ t ht
    cases ht
  | cons u rest IH =>
    intro g hroot t ht
    rw [List.foldl_cons]
    rcases List.mem_cons.mp ht with h1 | h2
    · subst h1
      refine hasEdge_initFold_mono rest _ _ _ ?_
      refine hasEdge_addEdgeRaw_self _ _ _ ?_
      rw [containsNode_addNode, hroot]
      rfl
    · refine IH _ ?_ t h2
      rw [containsNode_addEdgeRaw, containsNode_addNode, hroot]
      rfl

theorem initFold_src : ∀ (tasks : List Task) (g : Graph) (x y : String),
    (tasks.foldl (fun g t => (g.addNode t.name).addEdgeRaw "root" t.name) g).hasEdge x y
      = true → g.hasEdge x y = true ∨ x = "root" := by
  intro tasks
  induction tasks with
  | nil =>
    intro g x y h
    exact Or.inl h
  | cons t rest IH =>
    intro g x y h
    rw [List.foldl_cons] at h
    rcases IH _ _ _ h with h1 | h2
    · rcases hasEdge_addEdgeRaw_src _ _ _ _ _ h1 with h3 | h4
      · rw [hasEdge_addNode] at h3
        exact Or.inl h3
      · exact Or.inr h4.1
    · exact Or.inr h2

theorem base_no_edge (x y : String) :
    (Graph.empty.addNode "root").hasEdge x y = false := by
  unfold Graph.empty Graph.addNode Graph.containsNode Graph.hasEdge Graph.edgesOf
  by_cases hx : ("root" : String) = x
  · simp [List.find?, hx]
  · have : (("root" : String) == x) = false := by simpa using hx
    simp [List.find?, this]

theorem initNodes_src (tasks : List Task) (x y : String)
    (h : (initNodes tasks).hasEdge x y = true) : x = "root" := by
  unfold initNodes at h
  rcases initFold_src tasks _ x y h with h1 | h2
  · rw [base_no_edge] at h1
    cases h1
  · exact h2

theorem initNodes_root_edges (tasks : List Task) (t : Task) (ht : t ∈ tasks) :
    (initNodes tasks).hasEdge "root" t.name = true := by
  unfold initNodes
  refine initFold_root_edges tasks _ ?_ t ht
  unfold Graph.empty Graph.addNode Graph.containsNode
  simp [List.find?]

theorem containsNode_initNodes_name (tasks : List Task) (t : Task) (ht : t ∈ tasks) :
    (initNodes tasks).containsNode t.name = true := by
  rw [containsNode_initNodes]
  refine Bool.or_eq_true_iff.mpr (Or.inr ?_)
  rw [List.any_eq_true]
  exact ⟨t, ht, by simp⟩

theorem hasEdge_depEdgesG_mono : ∀ (tasks : List Task) (g : Graph) (x y : String),
    g.hasEdge x y = true → (depEdgesG g tasks).hasEdge x y = true := by
  intro tasks
  induction tasks with
  | nil =>
    intro g x y h
    exact h
  | cons t rest IH =>
    intro g x y h
    unfold depEdgesG
    rw [List.foldl_cons]
    exact IH _ _ _ (hasEdge_foldl_addEdgeRaw_mono t.name t.taskDep g x y h)

theorem depEdgesG_has : ∀ (tasks : List Task) (g : Graph),
    (∀ t ∈ tasks, g.containsNode t.name = true) →
    ∀ t ∈ tasks, ∀ d ∈ t.taskDep, (depEdgesG g tasks).hasEdge t.name d = true := by
  intro tasks
  induction tasks with
  | nil =>
    intro g _ t ht
    cases ht
  | cons u rest IH =>
    intro g hall t ht d hd
    unfold depEdgesG
    rw [List.foldl_cons]
    rcases List.mem_cons.mp ht with h1 | h2
    · subst h1
      exact hasEdge_depEdgesG_mono rest _ _ _
        (hasEdge_foldl_addEdgeRaw_self t.name t.taskDep g (hall t (by simp)) d hd)
    · refine IH _ ?_ t h2 d hd
      intro v hv
      rw [containsNode_foldl_addEdgeRaw]
      exact hall v (by simp [hv])

theorem depEdgesG_src : ∀ (tasks : List Task) (g : Graph) (x y : String),
    (depEdgesG g tasks).hasEdge x y = true →
    g.hasEdge x y = true ∨ ∃ t ∈ tasks, x = t.name := by
  intro tasks
  induction tasks with
  | nil =>
    intro g x y h
    exact Or.inl h
  | cons t rest IH =>
    intro g x y h
    unfold depEdgesG at h
    rw [List.foldl_cons] at h
    rcases IH _ _ _ h with h1 | h2
    · rcases hasEdge_foldl_addEdgeRaw_src t.name t.taskDep g x y h1 with h3 | h4
      · exact Or.inl h3
      · exact Or.inr ⟨t, by simp, h4⟩
    · rcases h2 with ⟨u, hu, hx⟩
      exact Or.inr ⟨u, by simp [hu], hx⟩

theorem hasEdge_pureFileStep_mono (g : Graph) (pr : Task × Task) (x y : String)
    (h : g.hasEdge x y = true) : (pureFileStep g pr).hasEdge x y = true := by
  unfold pureFileStep pureFileStepA pureFileStepB
  split <;> split <;>
    first
      | exact h
      | exact hasEdge_addEdgeRaw_mono _ _ _ _ _ h
      | exact hasEdge_addEdgeRaw_mono _ _ _ _ _ (hasEdge_addEdgeRaw_mono _ _ _ _ _ h)

theorem pureFileStep_src (g : Graph) (pr : Task × Task) (x y : String)
    (h : (pureFileStep g pr).hasEdge x y = true) :
    g.hasEdge x y = true ∨ x = pr.1.name ∨ x = pr.2.name := by
  unfold pureFileStep pureFileStepB at h
  have hA : ∀ h0 : (pureFileStepA g pr).hasEdge x y = true,
      g.hasEdge x y = true ∨ x = pr.1.name ∨ x = pr.2.name := by
    intro h0
    unfold pureFileStepA at h0
    split at h0
    · rcases hasEdge_addEdgeRaw_src _ _ _ _ _ h0 with h1 | h2
      · exact Or.inl h1
      · exact Or.inr (Or.inl h2.1)
    · exact Or.inl h0
  split at h
  · rcases hasEdge_addEdgeRaw_src _ _ _ _ _ h with h1 | h2
    · exact hA h1
    · exact Or.inr (Or.inr h2.1)
  · exact hA h

theorem hasEdge_fileFold_mono : ∀ (l : List (Task × Task)) (g : Graph) (x y : String),
    g.hasEdge x y = true → (l.foldl pureFileStep g).hasEdge x y = true := by
  intro l
  induction l with
  | nil =>
    intro g x y h
    exact h
  | cons pr rest IH =>
    intro g x y h
    rw [List.foldl_cons]
    exact IH _ _ _ (hasEdge_pureFileStep_mono g pr x y h)

theorem fileFold_src : ∀ (l : List (Task × Task)) (g : Graph) (x y : String),
    (l.foldl pureFileStep g).hasEdge x y = true →
    g.hasEdge x y = true ∨ ∃ pr ∈ l, x = pr.1.name ∨ x = pr.2.name := by
  intro l
  induction l with
  | nil =>
    intro g x y h
    exact Or.inl h
  | cons pr rest IH =>
    intro g x y h
    rw [List.foldl_cons] at h
    rcases IH _ _ _ h with h1 | h2
    · rcases pureFileStep_src g pr x y h1 with h3 | h4
      · exact Or.inl h3
      · exact Or.inr ⟨pr, by simp, h4⟩
    · rcases h2 with ⟨q, hq, hx⟩
      exact Or.inr ⟨q, by simp [hq], hx⟩

theorem fileFold_has : ∀ (l : List (Task × Task)) (g : Graph),
    (∀ pr ∈ l, g.containsNode pr.1.name = true ∧ g.containsNode pr.2.name = true) →
    ∀ pr ∈ l,
    ((!pr.2.targets.isEmpty && !(sInter pr.1.fileDep pr.2.targets).isEmpty) = true →
      (l.foldl pureFileStep g).hasEdge pr.1.name pr.2.name = true) ∧
    ((!pr.1.targets.isEmpty && !(sInter pr.2.fileDep pr.1.targets).isEmpty) = true →
      (l.foldl pureFileStep g).hasEdge pr.2.name pr.1.name = true) := by
  intro l
  induction l with
  | nil =>
    intro g _ pr hpr
    cases hpr
  | cons q rest IH =>
    intro g hall pr hpr
    rw [List.foldl_cons]
    rcases List.mem_cons.mp hpr with h1 | h2
    · subst h1
      rcases hall pr (by simp) with ⟨hc1, hc2⟩
      constructor
      · intro hguard
        refine hasEdge_fileFold_mono rest _ _ _ ?_
        unfold pureFileStep pureFileStepB
        have hin : (pureFileStepA g pr).hasEdge pr.1.name pr.2.name = true := by
          unfold pureFileStepA
          rw [if_pos hguard]
          exact hasEdge_addEdgeRaw_self _ _ _ hc1
        split
        · exact hasEdge_addEdgeRaw_mono _ _ _ _ _ hin
        · exact hin
      · intro hguard
        refine hasEdge_fileFold_mono rest _ _ _ ?_
        unfold pureFileStep pureFileStepB
        rw [if_pos hguard]
        refine hasEdge_addEdgeRaw_self _ _ _ ?_
        rw [containsNode_pureFileStepA]
        exact hc2
    · refine IH _ ?_ pr h2
      intro v hv
      simp only [containsNode_pureFileStep]
      exact hall v (by simp [hv])

theorem fileEdgeStep_eq (g : Graph) (pr : Task × Task) :
    fileEdgeStep g pr =
      if conflictB pr = true then
        .error (.sharedTargets pr.1.name pr.2.name (sInter pr.1.targets pr.2.targets))
      else .ok (pureFileStep g pr) := by
  rfl

theorem fileFoldM_ok : ∀ (l : List (Task × Task)) (g : Graph),
    (∀ pr ∈ l, conflictB pr = false) →
    l.foldlM fileEdgeStep g = .ok (l.foldl pureFileStep g) := by
  intro l
  induction l with
  | nil =>
    intro g _
    rfl
  | cons pr rest IH =>
    intro g hall
    rw [List.foldlM_cons, fileEdgeStep_eq, if_neg (by rw [hall pr (by simp)]; simp)]
    show rest.foldlM fileEdgeStep (pureFileStep g pr) = _
    rw [IH _ (fun q hq => hall q (by simp [hq])), List.foldl_cons]

theorem fileFoldM_err : ∀ (l : List (Task × Task)) (g : Graph),
    (∃ pr ∈ l, conflictB pr = true) →
    ∃ pr ∈ l, conflictB pr = true ∧
      l.foldlM fileEdgeStep g =
        .error (.sharedTargets pr.1.name pr.2.name (sInter pr.1.targets pr.2.targets)) := by
  intro l
  induction l with
  | nil =>
    rintro g ⟨pr, hpr, _⟩
    cases hpr
  | cons pr0 rest IH =>
    intro g hex
    cases hc : conflictB pr0 with
    | true =>
      refine ⟨pr0, by simp, hc, ?_⟩
      rw [List.foldlM_cons, fileEdgeStep_eq, if_pos hc]
      rfl
    | false =>
      have hrest : ∃ pr ∈ rest, conflictB pr = true := by
        rcases hex with ⟨pr, hpr, hcf⟩
        rcases List.mem_cons.mp hpr with h1 | h2
        · subst h1
          rw [hc] at hcf
          cases hcf
        · exact ⟨pr, h2, hcf⟩
      rcases IH (pureFileStep g pr0) hrest with ⟨pr, hpr, hcf, heq⟩
      refine ⟨pr, by simp [hpr], hcf, ?_⟩
      rw [List.foldlM_cons, fileEdgeStep_eq, if_neg (by rw [hc]; simp)]
      exact heq

theorem checkDeps_ok (fs : FS) (alltg : List String) : ∀ (tasks : List Task),
    (∀ t ∈ tasks, t.fileDep.find? (fun p => !(alltg.contains p) && (fs p).isNone) = none) →
    checkDeps fs alltg tasks = .ok () := by
  intro tasks
  induction tasks with
  | nil =>
    intro _
    rfl
  | cons t rest IH =>
    intro hall
    unfold checkDeps
    rw [hall t (by simp)]
    exact IH (fun u hu => hall u (by simp [hu]))

theorem checkDeps_err (fs : FS) (alltg : List String) : ∀ (tasks : List Task),
    (∃ t ∈ tasks, ∃ p, t.fileDep.find? (fun p => !(alltg.contains p) && (fs p).isNone)
      = some p) →
    ∃ t ∈ tasks, ∃ p,
      t.fileDep.find? (fun p => !(alltg.contains p) && (fs p).isNone) = some p ∧
      checkDeps fs alltg tasks = .error (.missingDep p t.name) := by
  intro tasks
  induction tasks with
  | nil =>
    rintro ⟨t, ht, _⟩
    cases ht
  | cons t0 rest IH =>
    intro hex
    cases hf : t0.fileDep.find? (fun p => !(alltg.contains p) && (fs p).isNone) with
    | some p =>
      refine ⟨t0, by simp, p, hf, ?_⟩
      unfold checkDeps
      rw [hf]
    | none =>
      have hrest : ∃ t ∈ rest, ∃ p,
          t.fileDep.find? (fun p => !(alltg.contains p) && (fs p).isNone) = some p := by
        rcases hex with ⟨t, ht, p, hp⟩
        rcases List.mem_cons.mp ht with h1 | h2
        · subst h1
          rw [hf] at hp
          cases hp
        · exact ⟨t, h2, p, hp⟩
      rcases IH hrest with ⟨t, ht, p, hp, heq⟩
      refine ⟨t, by simp [ht], p, hp, ?_⟩
      unfold checkDeps
      rw [hf]
      exact heq

theorem buildGraphChecked_ok (fs : FS) (tasks : List Task)
    (hdeps : checkDeps fs (allTargets tasks) tasks = .ok ())
    (hconf : ∀ pr ∈ pairsUpper tasks, conflictB pr = false) :
    buildGraphChecked fs tasks = .ok (builtG tasks) := by
  unfold buildGraphChecked
  rw [addTasksNodes_eq]
  show (match addTaskDepEdges (initNodes tasks) tasks with
    | Except.error e => Except.error e
    | Except.ok g1 =>
      match checkDeps fs (allTargets tasks) tasks with
      | Except.error e => Except.error e
      | Except.ok _ => addFileEdges g1 tasks) = _
  rw [addTaskDepEdges_eq tasks (initNodes tasks)
    (fun t ht => containsNode_initNodes_name tasks t ht)]
  show (match checkDeps fs (allTargets tasks) tasks with
    | Except.error e => Except.error e
    | Except.ok _ => addFileEdges (depEdgesG (initNodes tasks) tasks) tasks) = _
  rw [hdeps]
  show addFileEdges (depEdgesG (initNodes tasks) tasks) tasks = _
  unfold addFileEdges
  rw [fileFoldM_ok _ _ hconf]
  rfl

theorem buildGraphChecked_depErr (fs : FS) (tasks : List Task) (e : SchedErr)
    (hdeps : checkDeps fs (allTargets tasks) tasks = .error e) :
    buildGraphChecked fs tasks = .error e := by
  unfold buildGraphChecked
  rw [addTasksNodes_eq]
  show (match addTaskDepEdges (initNodes tasks) tasks with
    | Except.error e => Except.error e
    | Except.ok g1 =>
      match checkDeps fs (allTargets tasks) tasks with
      | Except.error e => Except.error e
      | Except.ok _ => addFileEdges g1 tasks) = _
  rw [addTaskDepEdges_eq tasks (initNodes tasks)
    (fun t ht => containsNode_initNodes_name tasks t ht)]
  show (match checkDeps fs (allTargets tasks) tasks with
    | Except.error e => Except.error e
    | Except.ok _ => addFileEdges (depEdgesG (initNodes tasks) tasks) tasks) = _
  rw [hdeps]

theorem buildGraphChecked_conflictErr (fs : FS) (tasks : List Task)
    (hdeps : checkDeps fs (allTargets tasks) tasks = .ok ())
    (hconf : ∃ pr ∈ pairsUpper tasks, conflictB pr = true) :
    ∃ pr ∈ pairsUpper tasks, conflictB pr = true ∧
      buildGraphChecked fs tasks =
        .error (.sharedTargets pr.1.name pr.2.name (sInter pr.1.targets pr.2.targets)) := by
  rcases fileFoldM_err (pairsUpper tasks) (depEdgesG (initNodes tasks) tasks) hconf
    with ⟨pr, hpr, hc, heq⟩
  refine ⟨pr, hpr, hc, ?_⟩
  unfold buildGraphChecked
  rw [addTasksNodes_eq]
  show (match addTaskDepEdges (initNodes tasks) tasks with
    | Except.error e => Except.error e
    | Except.ok g1 =>
      match checkDeps fs (allTargets tasks) tasks with
      | Except.error e => Except.error e
      | Except.ok _ => addFileEdges g1 tasks) = _
  rw [addTaskDepEdges_eq tasks (initNodes tasks)
    (fun t ht => containsNode_initNodes_name tasks t ht)]
  show (match checkDeps fs (allTargets tasks) tasks with
    | Except.error e => Except.error e
    | Except.ok _ => addFileEdges (depEdgesG (initNodes tasks) tasks) tasks) = _
  rw [hdeps]
  exact heq

theorem builtG_root_edges (tasks : List Task) (t : Task) (ht : t ∈ tasks) :
    (builtG tasks).hasEdge "root" t.name = true := by
  unfold builtG fileEdgesG
  exact hasEdge_fileFold_mono _ _ _ _
    (hasEdge_depEdgesG_mono _ _ _ _ (initNodes_root_edges tasks t ht))

theorem builtG_taskDep_edges (tasks : List Task) (t : Task) (ht : t ∈ tasks)
    (d : String) (hd : d ∈ t.taskDep) :
    (builtG tasks).hasEdge t.name d = true := by
  unfold builtG fileEdgesG
  refine hasEdge_fileFold_mono _ _ _ _ ?_
  exact depEdgesG_has tasks (initNodes tasks)
    (fun u hu => containsNode_initNodes_name tasks u hu) t ht d hd

theorem builtG_src (tasks : List Task) (x y : String)
    (h : (builtG tasks).hasEdge x y = true) :
    x = "root" ∨ ∃ t ∈ tasks, x = t.name := by
  unfold builtG fileEdgesG at h
  rcases fileFold_src _ _ _ _ h with h1 | h2
  · rcases depEdgesG_src _ _ _ _ h1 with h3 | h4
    · exact Or.inl (initNodes_src tasks x y h3)
    · exact Or.inr h4
  · rcases h2 with ⟨pr, hpr, hx⟩
    rcases mem_pairsUpper _ pr hpr with ⟨h1m, h2m⟩
    rcases hx with hxa | hxb
    · exact Or.inr ⟨pr.1, h1m, hxa⟩
    · exact Or.inr ⟨pr.2, h2m, hxb⟩

theorem sInter_targets_nonempty (a b : List String) (h : sInter a b ≠ []) :
    b.isEmpty = false := by
  rcases List.exists_mem_of_ne_nil _ h with ⟨x, hx⟩
  unfold sInter at hx
  rcases List.mem_filter.mp hx with ⟨_, hxb⟩
  have hxbm : x ∈ b := by simpa using hxb
  cases hb : b.isEmpty with
  | false => rfl
  | true =>
    rw [List.isEmpty_iff] at hb
    subst hb
    cases hxbm

theorem builtG_file_edges (tasks : List Task) (pr : Task × Task)
    (hpr : pr ∈ pairsUpper tasks) :
    (sInter pr.1.fileDep pr.2.targets ≠ [] →
      (builtG tasks).hasEdge pr.1.name pr.2.name = true) ∧
    (sInter pr.2.fileDep pr.1.targets ≠ [] →
      (builtG tasks).hasEdge pr.2.name pr.1.name = true) := by
  have hcont : ∀ q ∈ pairsUpper tasks,
      (depEdgesG (initNodes tasks) tasks).containsNode q.1.name = true ∧
      (depEdgesG (initNodes tasks) tasks).containsNode q.2.name = true := by
    intro q hq
    rcases mem_pairsUpper _ q hq with ⟨h1m, h2m⟩
    rw [containsNode_depEdgesG, containsNode_depEdgesG]
    exact ⟨containsNode_initNodes_name tasks q.1 h1m,
      containsNode_initNodes_name tasks q.2 h2m⟩
  rcases fileFold_has (pairsUpper tasks) (depEdgesG (initNodes tasks) tasks) hcont pr hpr
    with ⟨hfwd, hbwd⟩
  constructor
  · intro hne
    refine hfwd ?_
    rw [sInter_targets_nonempty _ _ hne]
    have : (sInter pr.1.fileDep pr.2.targets).isEmpty = false := by
      cases hq : (sInter pr.1.fileDep pr.2.targets).isEmpty with
      | false => rfl
      | true =>
        rw [List.isEmpty_iff] at hq
        exact absurd hq hne
    rw [this]
    rfl
  · intro hne
    refine hbwd ?_
    rw [sInter_targets_nonempty _ _ hne]
    have : (sInter pr.2.fileDep pr.1.targets).isEmpty = false := by
      cases hq : (sInter pr.2.fileDep pr.1.targets).isEmpty with
      | false => rfl
      | true =>
        rw [List.isEmpty_iff] at hq
        exact absurd hq hne
    rw [this]
    rfl

theorem taskEdge_sub_builtG (tasks : List Task) (a b : String)
    (h : TaskEdge tasks a b) : (builtG tasks).hasEdge a b = true := by
  rcases h with ⟨t, ht, ha, hb⟩ | ⟨pr, hpr, hcase⟩
  · subst ha
    exact builtG_taskDep_edges tasks t ht b hb
  · rcases hcase with ⟨ha, hb, hne⟩ | ⟨ha, hb, hne⟩
    · subst ha
      subst hb
      exact (builtG_file_edges tasks pr hpr).1 hne
    · subst ha
      subst hb
      exact (builtG_file_edges tasks pr hpr).2 hne

theorem rpath_head {R : String → String → Prop} {a b : String} (h : RPath R a b) :
    ∃ c, R a c := by
  cases h with
  | single h => exact ⟨_, h⟩
  | tail h _ => exact ⟨_, h⟩

theorem builtG_topSort_acyclic_ok (tasks : List Task)
    (hac : ∀ a, ¬ RPath (edgeRelP (builtG tasks)) a a) :
    ∃ names, (builtG tasks).topSort "root" = .ok names := by
  cases hres : (builtG tasks).topSort "root" with
  | ok names => exact ⟨names, rfl⟩
  | error e =>
    exfalso
    cases e with
    | fuelOut => exact topSort_no_fuelOut _ _ hres
    | cycleFound cyc =>
      rcases topSort_cycle_sound _ _ _ hres with ⟨m, hm⟩
      exact hac m hm

theorem builtG_topSort_cyclic_err (tasks : List Task)
    (hcyc : ∃ a, RPath (edgeRelP (builtG tasks)) a a) :
    ∃ cyc, (builtG tasks).topSort "root" = .error (.cycleFound cyc) := by
  rcases hcyc with ⟨a, ha⟩
  cases hres : (builtG tasks).topSort "root" with
  | error e =>
    cases e with
    | fuelOut => exact absurd hres (topSort_no_fuelOut _ _)
    | cycleFound cyc => exact ⟨cyc, rfl⟩
  | ok names =>
    exfalso
    rcases rpath_head ha with ⟨c, hac'⟩
    have hsrc := builtG_src tasks a c hac'
    have hnc := topSort_ok_no_cycle _ _ _ hres
    rcases hsrc with h1 | ⟨t, ht, h2⟩
    · exact hnc a (Or.inl h1) ha
    · refine hnc a (Or.inr ?_) ha
      subst h2
      exact .single (builtG_root_edges tasks t ht)

theorem core_of_build_ok (fs : FS) (tasks : List Task) (g : Graph)
    (hg : buildGraphChecked fs tasks = .ok g) :
    ScheduleTasksCore fs tasks =
      match g.topSort "root" with
      | .error e => .error (.sortFatal e)
      | .ok names => .ok names := by
  unfold ScheduleTasksCore
  rw [hg]

theorem core_of_build_err (fs : FS) (tasks : List Task) (e : SchedErr)
    (hg : buildGraphChecked fs tasks = .error e) :
    ScheduleTasksCore fs tasks = .error e := by
  unfold ScheduleTasksCore
  rw [hg]

theorem lookupA_map_hash (f : String → String) : ∀ (l : List String) (p : String),
    p ∈ l → lookupA (l.map (fun q => (q, f q))) p = some (f p) := by
  intro l
  induction l with
  | nil =>
    intro p hp
    cases hp
  | cons q l' IH =>
    intro p hp
    unfold lookupA
    rw [List.map_cons, List.find?_cons]
    by_cases hqp : q = p
    · subst hqp
      simp
    · have hb : ((q, f q).1 == p) = false := by simpa using hqp
      rw [hb]
      have hpl : p ∈ l' := by
        rcases List.mem_cons.mp hp with h1 | h2
        · exact absurd h1.symm hqp
        · exact h2
      exact IH p hpl

theorem lookupA_calcHashes (fs : FS) (t : Task) (p : String) (hp : p ∈ t.fileDep) :
    lookupA (calcHashes fs t) p = some (hashFile fs p) :=
  lookupA_map_hash (hashFile fs) t.fileDep p hp

theorem lookupA_calcHashes_none (fs : FS) (t : Task) (p : String) (hp : p ∉ t.fileDep) :
    lookupA (calcHashes fs t) p = none := by
  unfold lookupA calcHashes
  rw [List.find?_map]
  cases hf : t.fileDep.find? ((fun pr : String × String => pr.1 == p) ∘
      (fun q => (q, hashFile fs q))) with
  | none => rfl
  | some q =>
    exfalso
    have hq : q ∈ t.fileDep := List.mem_of_find?_eq_some hf
    have : q = p := by simpa using List.find?_some hf
    exact hp (this ▸ hq)

theorem mapEqvB_calc_refl (fs : FS) (t : Task) :
    mapEqvB (calcHashes fs t) (calcHashes fs t) = true := by
  unfold mapEqvB
  have hall : (calcHashes fs t).all
      (fun p => lookupA (calcHashes fs t) p.1 == some p.2) = true := by
    rw [List.all_eq_true]
    intro pair hpair
    rcases List.mem_map.mp hpair with ⟨p, hp, hpr⟩
    subst hpr
    rw [lookupA_calcHashes fs t p hp]
    simp
  rw [hall]
  rfl

theorem lookupA_some_mem (l : List (String × String)) (k v : String)
    (h : lookupA l k = some v) : (k, v) ∈ l := by
  unfold lookupA at h
  cases hf : l.find? (fun p => p.1 == k) with
  | none =>
    rw [hf] at h
    cases h
  | some pair =>
    rw [hf] at h
    have hmem := List.mem_of_find?_eq_some hf
    have hk : pair.1 = k := by simpa using List.find?_some hf
    have hv : pair.2 = v := by simpa using h
    rw [← hk, ← hv]
    exact hmem

theorem lookupA_nodup_mem (l : List (String × String))
    (hn : (l.map Prod.fst).Nodup) (pair : String × String) (h : pair ∈ l) :
    lookupA l pair.1 = some pair.2 := by
  induction l with
  | nil => cases h
  | cons q l' IH =>
    rw [List.map_cons, List.nodup_cons] at hn
    unfold lookupA
    rw [List.find?_cons]
    rcases List.mem_cons.mp h with h1 | h2
    · subst h1
      simp
    · by_cases hq : (q.1 == pair.1) = true
      · exfalso
        have : pair.1 ∈ l'.map Prod.fst := List.mem_map.mpr ⟨pair, h2, rfl⟩
        have hqp : q.1 = pair.1 := by simpa using hq
        exact hn.1 (hqp ▸ this)
      · rw [Bool.not_eq_true] at hq
        rw [hq]
        exact IH hn.2 h2

theorem mapEqvB_true_iff (old : List (String × String))
    (hn : (old.map Prod.fst).Nodup) (fs : FS) (t : Task) :
    mapEqvB old (calcHashes fs t) = true ↔ FingerprintsEq old (calcHashes fs t) := by
  constructor
  · intro h k
    unfold mapEqvB at h
    rcases Bool.and_eq_true_iff.mp h with ⟨hl, hr⟩
    rw [List.all_eq_true] at hl hr
    cases ho : lookupA old k with
    | some v =>
      have hmem : (k, v) ∈ old := lookupA_some_mem old k v ho
      have h2 := hl (k, v) hmem
      have h3 : lookupA (calcHashes fs t) k = some v := by simpa using h2
      rw [h3]
    | none =>
      cases hc : lookupA (calcHashes fs t) k with
      | none => rfl
      | some w =>
        exfalso
        have hmem : (k, w) ∈ calcHashes fs t := lookupA_some_mem _ k w hc
        have := hr (k, w) hmem
        have : lookupA old k = some w := by simpa using this
        rw [ho] at this
        cases this
  · intro h
    unfold mapEqvB
    rw [Bool.and_eq_true_iff]
    constructor
    · rw [List.all_eq_true]
      intro pair hpair
      have hlk : lookupA old pair.1 = some pair.2 := lookupA_nodup_mem old hn pair hpair
      have hc : lookupA (calcHashes fs t) pair.1 = some pair.2 := by
        rw [← h pair.1]
        exact hlk
      simp [hc]
    · rw [List.all_eq_true]
      intro pair hpair
      rcases List.mem_map.mp hpair with ⟨p, hp, hpr⟩
      subst hpr
      have hlk : lookupA old p = some (hashFile fs p) := by
        rw [h p, lookupA_calcHashes fs t p hp]
      simp [hlk]

theorem dirty_true_iff (fs : FS) (st : Store) (t : Task) :
    dirty fs st t = true ↔
      (depDataEqB (GetLastDepData st t) (CalculateDepData fs t) = false
       ∨ (∃ p ∈ t.fileDep, fs p = none) ∨ (∃ p ∈ t.targets, fs p = none)) := by
  cases h1 : depDataEqB (GetLastDepData st t) (CalculateDepData fs t) with
  | false => simp [dirty, h1, List.any_eq_true, Option.isNone_iff_eq_none]
  | true => simp [dirty, h1, List.any_eq_true, Option.isNone_iff_eq_none]

theorem depDataEqB_char (fs : FS) (st : Store) (t : Task) (hwf : StoreWF st) :
    depDataEqB (GetLastDepData st t) (CalculateDepData fs t) = true ↔
      ∃ m, st t.name = some m ∧ FingerprintsEq m (calcHashes fs t) := by
  unfold depDataEqB GetLastDepData CalculateDepData
  cases hst : st t.name with
  | none =>
    simp
  | some m =>
    simp only [beq_self_eq_true, Bool.true_and]
    rw [mapEqvB_true_iff m (hwf t.name m hst) fs t]
    constructor
    · intro h
      exact ⟨m, rfl, h⟩
    · rintro ⟨m', hm', h⟩
      cases hm'
      exact h

theorem commitAll_not_mem (fs : FS) : ∀ (l : List Task) (st : Store) (n : String),
    (∀ u ∈ l, u.name ≠ n) → commitAll fs st l n = st n := by
  intro l
  induction l with
  | nil =>
    intro st n _
    rfl
  | cons u rest IH =>
    intro st n hall
    unfold commitAll
    rw [List.foldl_cons]
    show commitAll fs (UpdateDepData fs st u) rest n = st n
    rw [IH _ _ (fun v hv => hall v (by simp [hv]))]
    unfold UpdateDepData
    rw [if_neg ?_]
    intro hc
    exact hall u (by simp) hc.symm

theorem commitAll_mem (fs : FS) : ∀ (l : List Task) (st : Store) (t : Task),
    t ∈ l → (l.map Task.name).Nodup →
    commitAll fs st l t.name = some (calcHashes fs t) := by
  intro l
  induction l with
  | nil =>
    intro st t ht
    cases ht
  | cons u rest IH =>
    intro st t ht hnd
    rw [List.map_cons, List.nodup_cons] at hnd
    unfold commitAll
    rw [List.foldl_cons]
    show commitAll fs (UpdateDepData fs st u) rest t.name = _
    rcases List.mem_cons.mp ht with h1 | h2
    · subst h1
      rw [commitAll_not_mem fs rest _ _ ?_]
      · unfold UpdateDepData
        rw [if_pos rfl]
      · intro v hv hc
        exact hnd.1 (hc ▸ List.mem_map.mpr ⟨v, hv, rfl⟩)
    · exact IH _ t h2 hnd.2

theorem dirty_store_congr (fs : FS) (st1 st2 : Store) (t : Task)
    (h : st1 t.name = st2 t.name) : dirty fs st1 t = dirty fs st2 t := by
  unfold dirty GetLastDepData
  rw [h]

/-- A task whose record equals its current fingerprint and whose inputs and
targets all exist is clean. -/
theorem dirty_false_of_calc (fs : FS) (st : Store) (t : Task)
    (hst : st t.name = some (calcHashes fs t))
    (hdep : ∀ p ∈ t.fileDep, (fs p).isSome = true)
    (htgt : ∀ p ∈ t.targets, (fs p).isSome = true) :
    dirty fs st t = false := by
  have heq : depDataEqB (GetLastDepData st t) (CalculateDepData fs t) = true := by
    unfold depDataEqB GetLastDepData CalculateDepData
    rw [hst]
    simp only [beq_self_eq_true, Bool.true_and]
    exact mapEqvB_calc_refl fs t
  cases hres : dirty fs st t with
  | false => rfl
  | true =>
    exfalso
    rcases (dirty_true_iff fs st t).mp hres with h1 | h2 | h3
    · rw [heq] at h1
      cases h1
    · rcases h2 with ⟨p, hp, hnone⟩
      have := hdep p hp
      rw [hnone] at this
      cases this
    · rcases h3 with ⟨p, hp, hnone⟩
      have := htgt p hp
      rw [hnone] at this
      cases this

theorem fileFoldM_ok_inv : ∀ (l : List (Task × Task)) (g0 gout : Graph),
    l.foldlM fileEdgeStep g0 = .ok gout →
    (∀ pr ∈ l, conflictB pr = false) ∧ gout = l.foldl pureFileStep g0 := by
  intro l
  induction l with
  | nil =>
    intro g0 gout h
    refine ⟨fun pr hpr => absurd hpr (List.not_mem_nil pr), ?_⟩
    cases h
    rfl
  | cons pr0 rest IH =>
    intro g0 gout h
    rw [List.foldlM_cons, fileEdgeStep_eq] at h
    cases hc : conflictB pr0 with
    | true =>
      rw [if_pos hc] at h
      cases h
    | false =>
      rw [if_neg (by rw [hc]; simp)] at h
      have h' : rest.foldlM fileEdgeStep (pureFileStep g0 pr0) = .ok gout := h
      rcases IH _ _ h' with ⟨hall, heq⟩
      refine ⟨?_, by rw [List.foldl_cons]; exact heq⟩
      intro pr hpr
      rcases List.mem_cons.mp hpr with h1 | h2
      · subst h1
        exact hc
      · exact hall pr h2

theorem build_ok_inv (fs : FS) (tasks : List Task) (g : Graph)
    (hg : buildGraphChecked fs tasks = .ok g) : g = builtG tasks := by
  unfold buildGraphChecked at hg
  rw [addTasksNodes_eq] at hg
  have hg1 : ((match addTaskDepEdges (initNodes tasks) tasks with
      | Except.error e => Except.error e
      | Except.ok g1 =>
        match checkDeps fs (allTargets tasks) tasks with
        | Except.error e => Except.error e
        | Except.ok _ => addFileEdges g1 tasks) : Except SchedErr Graph)
      = Except.ok g := hg
  rw [addTaskDepEdges_eq tasks (initNodes tasks)
    (fun t ht => containsNode_initNodes_name tasks t ht)] at hg1
  have hg2 : ((match checkDeps fs (allTargets tasks) tasks with
      | Except.error e => Except.error e
      | Except.ok _ => addFileEdges (depEdgesG (initNodes tasks) tasks) tasks) :
        Except SchedErr Graph) = Except.ok g := hg1
  cases hdeps : checkDeps fs (allTargets tasks) tasks with
  | error e =>
    rw [hdeps] at hg2
    cases hg2
  | ok u =>
    rw [hdeps] at hg2
    have hg3 : addFileEdges (depEdgesG (initNodes tasks) tasks) tasks = .ok g := hg2
    unfold addFileEdges at hg3
    rcases fileFoldM_ok_inv _ _ _ hg3 with ⟨_, heq⟩
    rw [heq]
    rfl

theorem core_ok_inv (fs : FS) (tasks : List Task) (names : List String)
    (h : ScheduleTasksCore fs tasks = .ok names) :
    buildGraphChecked fs tasks = .ok (builtG tasks) ∧
      (builtG tasks).topSort "root" = .ok names := by
  unfold ScheduleTasksCore at h
  cases hb : buildGraphChecked fs tasks with
  | error e =>
    rw [hb] at h
    cases h
  | ok g =>
    have hgb : g = builtG tasks := build_ok_inv fs tasks g hb
    subst hgb
    rw [hb] at h
    have h2 : ((match (builtG tasks).topSort "root" with
        | Except.error e => Except.error (SchedErr.sortFatal e)
        | Except.ok names => Except.ok names) : Except SchedErr (List String))
        = Except.ok names := h
    refine ⟨rfl, ?_⟩
    cases hts : Graph.topSort (builtG tasks) "root" with
    | error e =>
      rw [hts] at h2
      cases h2
    | ok names' =>
      rw [hts] at h2
      cases h2
      rfl

/-- The missing-dependency fatal, lifted to the whole scheduler: shared by
the resolvability and the validation-order analyses. -/
theorem core_missing_of_offender (fs : FS) (st : Store) (tasks : List Task)
    (hoff : ∃ t ∈ tasks, ∃ p ∈ t.fileDep, p ∉ allTargets tasks ∧ fs p = none) :
    ∃ t ∈ tasks, ∃ p ∈ t.fileDep, p ∉ allTargets tasks ∧ fs p = none ∧
      ScheduleTasksCore fs tasks = .error (.missingDep p t.name) ∧
      ScheduleTasks fs st tasks = .error (.missingDep p t.name) := by
  have hfind : ∃ t ∈ tasks, ∃ p,
      t.fileDep.find? (fun p => !((allTargets tasks).contains p) && (fs p).isNone)
        = some p := by
    rcases hoff with ⟨t, ht, p, hp, hnt, hnone⟩
    refine ⟨t, ht, ?_⟩
    cases hf : t.fileDep.find?
        (fun p => !((allTargets tasks).contains p) && (fs p).isNone) with
    | some q => exact ⟨q, rfl⟩
    | none =>
      exfalso
      rw [List.find?_eq_none] at hf
      refine hf p hp ?_
      have h1 : ((allTargets tasks).contains p) = false := by
        cases hc : (allTargets tasks).contains p with
        | false => rfl
        | true => exact absurd (by simpa using hc) hnt
      rw [h1, hnone]
      rfl
  rcases checkDeps_err fs (allTargets tasks) tasks hfind with ⟨t, ht, p, hp, herr⟩
  have hpmem : p ∈ t.fileDep := List.mem_of_find?_eq_some hp
  have hpred := List.find?_some hp
  rw [Bool.and_eq_true_iff] at hpred
  have hnt : p ∉ allTargets tasks := by
    rcases hpred with ⟨hl, _⟩
    intro hmem
    have : ((allTargets tasks).contains p) = true := by simpa using hmem
    rw [this] at hl
    cases hl
  have hnone : fs p = none := by
    rcases hpred with ⟨_, hr⟩
    rwa [Option.isNone_iff_eq_none] at hr
  have hcore : ScheduleTasksCore fs tasks = .error (.missingDep p t.name) :=
    core_of_build_err fs tasks _ (buildGraphChecked_depErr fs tasks _ herr)
  refine ⟨t, ht, p, hpmem, hnt, hnone, hcore, ?_⟩
  unfold ScheduleTasks
  rw [hcore]

theorem taskNameMapL_isSome (tasks : List Task) (n : String)
    (h : (taskNameMapL tasks n).isSome = true) :
    n = "root" ∨ ∃ t ∈ tasks, t.name = n := by
  unfold taskNameMapL at h
  cases hf : tasks.reverse.find? (fun t => t.name == n) with
  | some t =>
    refine Or.inr ⟨t, ?_, by simpa using List.find?_some hf⟩
    have := List.mem_of_find?_eq_some hf
    exact List.mem_reverse.mp this
  | none =>
    rw [hf] at h
    by_cases hn : n = "root"
    · exact Or.inl hn
    · exfalso
      have hb : (n == "root") = false := by simpa using hn
      rw [hb] at h
      cases h

theorem taskNameMapL_root (tasks : List Task) (hnr : ∀ t ∈ tasks, t.name ≠ "root") :
    taskNameMapL tasks "root" = some rootTask := by
  unfold taskNameMapL
  have hf : tasks.reverse.find? (fun t => t.name == "root") = none := by
    rw [List.find?_eq_none]
    intro t ht
    have : t ∈ tasks := List.mem_reverse.mp ht
    simpa using hnr t this
  rw [hf]
  rfl

theorem hasEdge_mem_edgePairs (g : Graph) (a b : String)
    (h : g.hasEdge a b = true) : (a, b) ∈ edgePairs g := by
  rw [hasEdge_iff_mem] at h
  unfold Graph.edgesOf at h
  cases hf : g.nodes.find? (fun p => p.1 == a) with
  | none =>
    rw [hf] at h
    cases h
  | some p =>
    rw [hf] at h
    unfold edgePairs
    rw [List.mem_flatMap]
    refine ⟨p, List.mem_of_find?_eq_some hf, ?_⟩
    rw [List.mem_map]
    exact ⟨b, h, by rw [show p.1 = a from by simpa using List.find?_some hf]⟩

theorem rpath_rank_lt {g : Graph} {rk : String → Nat}
    (h : ∀ pq ∈ edgePairs g, rk pq.2 < rk pq.1) :
    ∀ {a b : String}, RPath (edgeRelP g) a b → rk b < rk a := by
  intro a b hp
  induction hp with
  | single hs => exact h _ (hasEdge_mem_edgePairs _ _ _ hs)
  | tail hs _ ih =>
    exact Nat.lt_trans ih (h _ (hasEdge_mem_edgePairs _ _ _ hs))

/-- A rank function decreasing along every edge certifies acyclicity. -/
theorem acyclic_of_rank (g : Graph) (rk : String → Nat)
    (h : ∀ pq ∈ edgePairs g, rk pq.2 < rk pq.1) :
    ∀ a, ¬ RPath (edgeRelP g) a a := by
  intro a hcyc
  exact Nat.lt_irrefl (rk a) (rpath_rank_lt h hcyc)

theorem sInter_left_nonempty (a b : List String) (h : sInter a b ≠ []) :
    a.isEmpty = false := by
  rcases List.exists_mem_of_ne_nil _ h with ⟨x, hx⟩
  unfold sInter at hx
  rcases List.mem_filter.mp hx with ⟨hxa, _⟩
  cases ha : a.isEmpty with
  | false => rfl
  | true =>
    rw [List.isEmpty_iff] at ha
    subst ha
    cases hxa

theorem conflictB_iff (pr : Task × Task) :
    conflictB pr = true ↔ sInter pr.1.targets pr.2.targets ≠ [] := by
  unfold conflictB
  constructor
  · intro h
    rcases Bool.and_eq_true_iff.mp h with ⟨_, hr⟩
    intro hnil
    rw [hnil] at hr
    cases hr
  · intro h
    rw [Bool.and_eq_true_iff]
    refine ⟨?_, ?_⟩
    · rw [Bool.and_eq_true_iff]
      refine ⟨?_, ?_⟩
      · rw [sInter_left_nonempty _ _ h]
        rfl
      · rw [sInter_targets_nonempty _ _ h]
        rfl
    · cases hq : (sInter pr.1.targets pr.2.targets).isEmpty with
      | false => rfl
      | true =>
        rw [List.isEmpty_iff] at hq
        exact absurd hq h

theorem dedup_length_lt (l : List String) (h : ¬ l.Nodup) :
    l.dedup.length < l.length := by
  rcases Nat.lt_or_ge l.dedup.length l.length with h1 | h2
  · exact h1
  · exfalso
    have hsub : List.Sublist l.dedup l := l.dedup_sublist
    have hle : l.dedup.length ≤ l.length := hsub.length_le
    have heq : l.dedup.length = l.length := Nat.le_antisymm hle h2
    have : l.dedup = l := hsub.eq_of_length heq
    exact h (this ▸ l.nodup_dedup)

/-- Claim C1: for every task set that passes validation (the build phase
returns a graph) and whose constructed dependency graph (explicit `taskDep`
edges plus file-derived edges, plus the root edges) is acyclic, the
topologically sorted sequence computed by `ScheduleTasks` places, for every
edge A → B of the constructed graph, the node B before the node A. -/
theorem claim1_topological_sound (fs : FS) (tasks : List Task) (g : Graph)
    (hg : buildGraphChecked fs tasks = .ok g)
    (hac : ∀ a, ¬ RPath (edgeRelP g) a a) :
    ∃ names, ScheduleTasksCore fs tasks = .ok names ∧
      ∀ a b, g.hasEdge a b = true → b ∈ names ∧ beforeIn names b a := by
  have hgb := build_ok_inv fs tasks g hg
  subst hgb
  rcases builtG_topSort_acyclic_ok tasks hac with ⟨names, hts⟩
  refine ⟨names, ?_, ?_⟩
  · rw [core_of_build_ok fs tasks _ hg, hts]
  · rcases topSort_ok_ordered _ _ _ hts with ⟨hord, hroot⟩
    intro a b hab
    have hamem : a ∈ names := by
      rcases builtG_src tasks a b hab with h1 | ⟨t, ht, h2⟩
      · exact h1 ▸ hroot
      · subst h2
        have hre : t.name ∈ (builtG tasks).edgesOf "root" :=
          (hasEdge_iff_mem _ _ _).mp (builtG_root_edges tasks t ht)
        exact (hord "root" hroot t.name hre).1
    exact hord a hamem b ((hasEdge_iff_mem _ _ _).mp hab)

/-- Witness for C1: a producer/consumer pair is scheduled with every edge
target placed before its source. -/
theorem claim1_topological_sound_witness :
    ∃ names, ScheduleTasksCore fsEmpty [taskB1, taskA1] = .ok names ∧
      ∀ a b, gExample.hasEdge a b = true → b ∈ names ∧ beforeIn names b a :=
  claim1_topological_sound fsEmpty [taskB1, taskA1] gExample rfl
    (acyclic_of_rank gExample rkExample (by decide))

/-- Counterexample to C2 as stated: a task whose own target is among its
file dependencies gives the spec-worded dependency relation a cycle
(rule 3 with A = B), yet scheduling does not fail with a cycle error — the
pair loop only relates distinct index pairs, so no self-edge is built and
an order is returned. -/
theorem claim2_counterexample :
    RPath (SpecEdge [taskSelf]) "s" "s" ∧
    ScheduleTasksCore fsEmpty [taskSelf] = .ok ["s", "root"] ∧
    ScheduleTasks fsEmpty stEmpty [taskSelf] = .ok [taskSelf, rootTask] :=
  ⟨.single (Or.inr ⟨taskSelf, by simp, taskSelf, by simp, rfl, rfl, by decide⟩),
    rfl, rfl⟩

/-- Claim C2 (amended): for every task set that passes the
missing-dependency and shared-target validations and whose dependency
relation between distinct task positions (explicit `taskDep` edges plus
file-derived edges of the pair loop) contains a cycle, scheduling fails
with the cycle error — it never exhausts the visit bound and never returns
an order. -/
theorem claim2_cycle_error (fs : FS) (st : Store) (tasks : List Task)
    (hdeps : checkDeps fs (allTargets tasks) tasks = .ok ())
    (hconf : ∀ pr ∈ pairsUpper tasks, conflictB pr = false)
    (hcyc : ∃ a, RPath (TaskEdge tasks) a a) :
    ∃ cyc, ScheduleTasksCore fs tasks = .error (.sortFatal (.cycleFound cyc)) ∧
      ScheduleTasks fs st tasks = .error (.sortFatal (.cycleFound cyc)) := by
  have hbuild := buildGraphChecked_ok fs tasks hdeps hconf
  have hcyc2 : ∃ a, RPath (edgeRelP (builtG tasks)) a a := by
    rcases hcyc with ⟨a, ha⟩
    exact ⟨a, rpath_mono (fun x y hxy => taskEdge_sub_builtG tasks x y hxy) ha⟩
  rcases builtG_topSort_cyclic_err tasks hcyc2 with ⟨cyc, hts⟩
  have hcore : ScheduleTasksCore fs tasks = .error (.sortFatal (.cycleFound cyc)) := by
    rw [core_of_build_ok fs tasks _ hbuild, hts]
  refine ⟨cyc, hcore, ?_⟩
  unfold ScheduleTasks
  rw [hcore]

/-- Witness for amended C2: a two-task explicit-order cycle is reported as
a cycle error. -/
theorem claim2_cycle_error_witness :
    ∃ cyc, ScheduleTasksCore fsEmpty [taskC1, taskC2]
        = .error (.sortFatal (.cycleFound cyc)) ∧
      ScheduleTasks fsEmpty stEmpty [taskC1, taskC2]
        = .error (.sortFatal (.cycleFound cyc)) :=
  claim2_cycle_error fsEmpty stEmpty [taskC1, taskC2] rfl (by decide)
    ⟨"a", .tail (Or.inl ⟨taskC1, by simp, rfl, by decide⟩)
      (.single (Or.inl ⟨taskC2, by simp, rfl, by decide⟩))⟩

/-- Claim C3: `dirty` returns true iff no record exists for the task's
name, or the persisted fingerprint differs from the current one as a
path → digest map, or some declared file dependency is missing on disk, or
some declared target is missing on disk — the logical OR of the spec's
conditions. -/
theorem claim3_stale_iff (fs : FS) (st : Store) (t : Task) (hwf : StoreWF st) :
    dirty fs st t = true ↔
      (st t.name = none
       ∨ (∃ m, st t.name = some m ∧ ¬ FingerprintsEq m (calcHashes fs t))
       ∨ (∃ p ∈ t.fileDep, fs p = none)
       ∨ (∃ p ∈ t.targets, fs p = none)) := by
  rw [dirty_true_iff]
  constructor
  · rintro (h1 | h2 | h3)
    · cases hst : st t.name with
      | none => exact Or.inl rfl
      | some m =>
        refine Or.inr (Or.inl ⟨m, rfl, ?_⟩)
        intro hfe
        have h4 : depDataEqB (GetLastDepData st t) (CalculateDepData fs t) = true :=
          (depDataEqB_char fs st t hwf).mpr ⟨m, hst, hfe⟩
        rw [h1] at h4
        cases h4
    · exact Or.inr (Or.inr (Or.inl h2))
    · exact Or.inr (Or.inr (Or.inr h3))
  · rintro (h1 | ⟨m, hm, hne⟩ | h3 | h4)
    · left
      cases hq : depDataEqB (GetLastDepData st t) (CalculateDepData fs t) with
      | false => rfl
      | true =>
        rcases (depDataEqB_char fs st t hwf).mp hq with ⟨m, hm, _⟩
        rw [h1] at hm
        cases hm
    · left
      cases hq : depDataEqB (GetLastDepData st t) (CalculateDepData fs t) with
      | false => rfl
      | true =>
        rcases (depDataEqB_char fs st t hwf).mp hq with ⟨m2, hm2, hfe⟩
        rw [hm] at hm2
        cases hm2
        exact absurd hfe hne
    · exact Or.inr (Or.inl h3)
    · exact Or.inr (Or.inr h4)

/-- Witness for C3 at a concrete task, filesystem and (empty) store. -/
theorem claim3_stale_iff_witness :
    dirty fs4 stEmpty task4 = true ↔
      (stEmpty task4.name = none
       ∨ (∃ m, stEmpty task4.name = some m ∧ ¬ FingerprintsEq m (calcHashes fs4 task4))
       ∨ (∃ p ∈ task4.fileDep, fs4 p = none)
       ∨ (∃ p ∈ task4.targets, fs4 p = none)) :=
  claim3_stale_iff fs4 stEmpty task4 (fun _ _ h => nomatch h)

/-- Counterexample to C4 as stated: a task with a never-created target is
committed after the first run, the filesystem never changes, and yet the
second `FilterTasks` still returns it — a missing target keeps a task
stale regardless of the commit. -/
theorem claim4_counterexample :
    FilterTasks fsEmpty (commitAll fsEmpty stEmpty (FilterTasks fsEmpty stEmpty [taskT4]))
      [taskT4] = [taskT4] := rfl

/-- Claim C4 (amended): for every task set with pairwise distinct names
whose file dependencies and targets all exist on disk, running
`FilterTasks`, committing (`UpdateDepData`) every returned task, and
running `FilterTasks` again with no filesystem change yields the empty
stale list. -/
theorem claim4_idempotent (fs : FS) (st : Store) (tasks : List Task)
    (hnd : (tasks.map Task.name).Nodup)
    (hex : ∀ t ∈ tasks, (∀ p ∈ t.fileDep, (fs p).isSome = true)
      ∧ (∀ p ∈ t.targets, (fs p).isSome = true)) :
    FilterTasks fs (commitAll fs st (FilterTasks fs st tasks)) tasks = [] := by
  rw [show FilterTasks fs (commitAll fs st (FilterTasks fs st tasks)) tasks
      = tasks.filter (fun u => dirty fs (commitAll fs st (FilterTasks fs st tasks)) u)
      from rfl,
    List.filter_eq_nil_iff]
  intro t ht hd
  have hsubnames : List.Sublist ((FilterTasks fs st tasks).map Task.name)
      (tasks.map Task.name) := (List.filter_sublist tasks).map Task.name
  cases hdt : dirty fs st t with
  | true =>
    have hmem : t ∈ FilterTasks fs st tasks := by
      unfold FilterTasks
      exact List.mem_filter.mpr ⟨ht, hdt⟩
    have hst : commitAll fs st (FilterTasks fs st tasks) t.name
        = some (calcHashes fs t) :=
      commitAll_mem fs (FilterTasks fs st tasks) st t hmem (hsubnames.nodup hnd)
    have hfalse := dirty_false_of_calc fs _ t hst (hex t ht).1 (hex t ht).2
    rw [hfalse] at hd
    cases hd
  | false =>
    have hnone : ∀ u ∈ FilterTasks fs st tasks, u.name ≠ t.name := by
      intro u hu hc
      have humem : u ∈ tasks := (List.mem_filter.mp hu).1
      have : u = t := List.inj_on_of_nodup_map hnd humem ht hc
      subst this
      have := (List.mem_filter.mp hu).2
      rw [hdt] at this
      cases this
    have hst := commitAll_not_mem fs (FilterTasks fs st tasks) st t.name hnone
    rw [dirty_store_congr fs _ st t hst, hdt] at hd
    cases hd

/-- Witness for amended C4: a one-task set whose input and target exist is
clean on the second run after a commit. -/
theorem claim4_idempotent_witness :
    FilterTasks fs4 (commitAll fs4 stEmpty (FilterTasks fs4 stEmpty [task4]))
      [task4] = [] :=
  claim4_idempotent fs4 stEmpty [task4] (by simp)
    (by
      intro t ht
      have h1 : t = task4 := by simpa using ht
      subst h1
      exact ⟨by decide, by decide⟩)

/-- Counterexample to C5 as stated: two tasks share the target `o`, but one
of them also has the missing, unproduced dependency `m`; the run fails with
the missing-dependency fatal, not with a conflict error naming both tasks,
because the source checks dependency resolvability before target
ownership. -/
theorem claim5_counterexample :
    sInter taskX.targets taskY.targets = ["o"] ∧
    ScheduleTasksCore fsEmpty [taskX, taskY] = .error (.missingDep "m" "y") ∧
    ScheduleTasks fsEmpty stEmpty [taskX, taskY] = .error (.missingDep "m" "y") :=
  ⟨rfl, rfl, rfl⟩

/-- Claim C5 (amended): for every task set that passes the
missing-dependency check, a pair of distinct tasks with intersecting
target sets makes `ScheduleTasks` fail with a conflict error naming both
tasks and the shared paths, and no schedule is returned. -/
theorem claim5_conflict (fs : FS) (st : Store) (tasks : List Task)
    (hdeps : checkDeps fs (allTargets tasks) tasks = .ok ())
    (hconf : ∃ pr ∈ pairsUpper tasks, sInter pr.1.targets pr.2.targets ≠ []) :
    ∃ pr ∈ pairsUpper tasks, sInter pr.1.targets pr.2.targets ≠ [] ∧
      ScheduleTasksCore fs tasks
        = .error (.sharedTargets pr.1.name pr.2.name (sInter pr.1.targets pr.2.targets)) ∧
      ScheduleTasks fs st tasks
        = .error (.sharedTargets pr.1.name pr.2.name (sInter pr.1.targets pr.2.targets)) := by
  have hconfB : ∃ pr ∈ pairsUpper tasks, conflictB pr = true := by
    rcases hconf with ⟨pr, hpr, hne⟩
    exact ⟨pr, hpr, (conflictB_iff pr).mpr hne⟩
  rcases buildGraphChecked_conflictErr fs tasks hdeps hconfB with ⟨pr, hpr, hcb, herr⟩
  have hcore := core_of_build_err fs tasks _ herr
  refine ⟨pr, hpr, (conflictB_iff pr).mp hcb, hcore, ?_⟩
  unfold ScheduleTasks
  rw [hcore]

/-- Witness for amended C5: two tasks claiming the target `o` produce the
shared-target fatal. -/
theorem claim5_conflict_witness :
    ∃ pr ∈ pairsUpper [taskX, taskY2], sInter pr.1.targets pr.2.targets ≠ [] ∧
      ScheduleTasksCore fsEmpty [taskX, taskY2]
        = .error (.sharedTargets pr.1.name pr.2.name (sInter pr.1.targets pr.2.targets)) ∧
      ScheduleTasks fsEmpty stEmpty [taskX, taskY2]
        = .error (.sharedTargets pr.1.name pr.2.name (sInter pr.1.targets pr.2.targets)) :=
  claim5_conflict fsEmpty stEmpty [taskX, taskY2] rfl
    ⟨(taskX, taskY2), by decide, by decide⟩

/-- Claim C6: a file dependency that is neither in the union of all
declared targets nor present on the filesystem makes the run fail with the
fatal error naming an offending task and path, and no schedule is
returned. -/
theorem claim6_missing_dep (fs : FS) (st : Store) (tasks : List Task)
    (hoff : ∃ t ∈ tasks, ∃ p ∈ t.fileDep, p ∉ allTargets tasks ∧ fs p = none) :
    ∃ t ∈ tasks, ∃ p ∈ t.fileDep, p ∉ allTargets tasks ∧ fs p = none ∧
      ScheduleTasksCore fs tasks = .error (.missingDep p t.name) ∧
      ScheduleTasks fs st tasks = .error (.missingDep p t.name) :=
  core_missing_of_offender fs st tasks hoff

/-- Witness for C6: a task reading an absent, unproduced path fails with
the missing-dependency fatal. -/
theorem claim6_missing_dep_witness :
    ∃ t ∈ [taskM], ∃ p ∈ t.fileDep, p ∉ allTargets [taskM] ∧ fsEmpty p = none ∧
      ScheduleTasksCore fsEmpty [taskM] = .error (.missingDep p t.name) ∧
      ScheduleTasks fsEmpty stEmpty [taskM] = .error (.missingDep p t.name) :=
  claim6_missing_dep fsEmpty stEmpty [taskM]
    ⟨taskM, by simp, "missing", by simp [taskM], by decide, rfl⟩

/-- Counterexample to C7 as stated: two tasks named "a" are not rejected by
any validation — the sort completes (scheduling occurs) over the silently
deduplicated node set, and the run then dies in the remap/filter phase
rather than reporting a duplicate-name error. -/
theorem claim7_counterexample :
    ScheduleTasksCore fsEmpty [taskDup, taskDup] = .ok ["a", "root"] ∧
    ScheduleTasks fsEmpty stEmpty [taskDup, taskDup] = .error .panicRemap :=
  ⟨rfl, rfl⟩

/-- Claim C7 (amended): duplicate task names are never detected by a
validation check; a task set with a repeated name never yields a schedule —
the later task overwrites the earlier one in the name map, the sorted
sequence comes up short against `len(tasks)+1`, and the remap/filter phase
panics (when an earlier fatal does not fire first). -/
theorem claim7_dup_names (fs : FS) (st : Store) (tasks : List Task)
    (hdup : ¬ (tasks.map Task.name).Nodup) :
    ∀ res, ScheduleTasks fs st tasks ≠ .ok res := by
  intro res hok
  unfold ScheduleTasks at hok
  cases hcore : ScheduleTasksCore fs tasks with
  | error e =>
    rw [hcore] at hok
    cases hok
  | ok names =>
    rw [hcore] at hok
    have hok2 : (if (names.length == tasks.length + 1
        && (names.map (taskNameMapL tasks)).all Option.isSome) = true then
        Except.ok (FilterTasks fs st ((names.map (taskNameMapL tasks)).filterMap id))
      else (Except.error SchedErr.panicRemap : Except SchedErr (List Task)))
        = Except.ok res := hok
    by_cases hcond : (names.length == tasks.length + 1
        && (names.map (taskNameMapL tasks)).all Option.isSome) = true
    · rw [Bool.and_eq_true_iff] at hcond
      have hlen : names.length = tasks.length + 1 := by simpa using hcond.1
      have hsome := hcond.2
      rw [List.all_eq_true] at hsome
      rcases core_ok_inv fs tasks names hcore with ⟨_, hts⟩
      rcases topSort_ok_scope _ _ _ hts with ⟨hnd, _⟩
      have hsub : names ⊆ "root" :: (tasks.map Task.name).dedup := by
        intro x hx
        have hx2 : (taskNameMapL tasks x).isSome = true :=
          hsome (taskNameMapL tasks x) (List.mem_map.mpr ⟨x, hx, rfl⟩)
        rcases taskNameMapL_isSome tasks x hx2 with h1 | ⟨t, ht, h2⟩
        · rw [h1]
          simp
        · refine List.mem_cons_of_mem _ (List.mem_dedup.mpr ?_)
          exact List.mem_map.mpr ⟨t, ht, h2⟩
      have hle : names.length ≤ ("root" :: (tasks.map Task.name).dedup).length :=
        nodup_length_le _ _ hnd hsub
      rw [List.length_cons] at hle
      have hlt : (tasks.map Task.name).dedup.length < tasks.length := by
        have h5 := dedup_length_lt (tasks.map Task.name) hdup
        rw [List.length_map] at h5
        exact h5
      omega
    · rw [if_neg hcond] at hok2
      cases hok2

/-- Witness for amended C7: the duplicated pair never yields a schedule,
in particular not the empty one. -/
theorem claim7_dup_names_witness :
    ScheduleTasks fsEmpty stEmpty [taskDup, taskDup] ≠ .ok [] :=
  claim7_dup_names fsEmpty stEmpty [taskDup, taskDup] (by decide) []

/-- Counterexample to C8 as stated: on an empty task set with no persisted
record, the returned schedule contains the synthetic root task — the
remapped sequence includes the root, and the filter keeps it because its
absent record classifies it dirty. -/
theorem claim8_counterexample :
    ScheduleTasks fsEmpty stEmpty [] = .ok [rootTask] := rfl

/-- Claim C8 (amended): when no declared task is named "root" and the run
returns a schedule, that schedule contains the synthetic root task exactly
when the root is classified dirty (e.g. on a store with no record for
"root"); the root is not unconditionally excluded. -/
theorem claim8_root_in_output (fs : FS) (st : Store) (tasks : List Task)
    (res : List Task)
    (hnr : ∀ t ∈ tasks, t.name ≠ "root")
    (hok : ScheduleTasks fs st tasks = .ok res) :
    rootTask ∈ res ↔ dirty fs st rootTask = true := by
  unfold ScheduleTasks at hok
  cases hcore : ScheduleTasksCore fs tasks with
  | error e =>
    rw [hcore] at hok
    cases hok
  | ok names =>
    rw [hcore] at hok
    have hok2 : (if (names.length == tasks.length + 1
        && (names.map (taskNameMapL tasks)).all Option.isSome) = true then
        Except.ok (FilterTasks fs st ((names.map (taskNameMapL tasks)).filterMap id))
      else (Except.error SchedErr.panicRemap : Except SchedErr (List Task)))
        = Except.ok res := hok
    by_cases hcond : (names.length == tasks.length + 1
        && (names.map (taskNameMapL tasks)).all Option.isSome) = true
    · rw [if_pos hcond] at hok2
      have hres : res = FilterTasks fs st ((names.map (taskNameMapL tasks)).filterMap id) := by
        cases hok2
        rfl
      rcases core_ok_inv fs tasks names hcore with ⟨_, hts⟩
      have hroot : "root" ∈ names := (topSort_ok_ordered _ _ _ hts).2
      have hlist : rootTask ∈ (names.map (taskNameMapL tasks)).filterMap id := by
        rw [List.mem_filterMap]
        exact ⟨some rootTask,
          List.mem_map.mpr ⟨"root", hroot, taskNameMapL_root tasks hnr⟩, rfl⟩
      rw [hres]
      unfold FilterTasks
      constructor
      · intro hmem
        exact (List.mem_filter.mp hmem).2
      · intro hd
        exact List.mem_filter.mpr ⟨hlist, hd⟩
    · rw [if_neg hcond] at hok2
      cases hok2

/-- Witness for amended C8: on the empty task set and empty store, the
root task is in the output and is indeed dirty. -/
theorem claim8_root_in_output_witness :
    rootTask ∈ [rootTask] ↔ dirty fsEmpty stEmpty rootTask = true :=
  claim8_root_in_output fsEmpty stEmpty [] [rootTask]
    (fun t ht => absurd ht (List.not_mem_nil t)) rfl

/-- Counterexample to C9 as stated: a task set violating both target
ownership (shared target `o`) and dependency resolvability (missing `m`)
is reported with the missing-dependency error, not the ownership error the
spec's validation order (uniqueness, ownership, resolvability) dictates;
explicit `taskDep` edges are, moreover, added to the graph before either
check runs. -/
theorem claim9_counterexample :
    sInter taskX.targets taskY.targets ≠ [] ∧
    ScheduleTasksCore fsEmpty [taskX, taskY] = .error (.missingDep "m" "y") :=
  ⟨by decide, rfl⟩

/-- Claim C9 (amended): the source has no name-uniqueness check and runs
dependency resolvability before target ownership: whenever a task set
violates both the resolvability and the ownership rule, the error reported
is the missing-dependency fatal. -/
theorem claim9_actual_order (fs : FS) (st : Store) (tasks : List Task)
    (hoff : ∃ t ∈ tasks, ∃ p ∈ t.fileDep, p ∉ allTargets tasks ∧ fs p = none)
    (_hconf : ∃ pr ∈ pairsUpper tasks, sInter pr.1.targets pr.2.targets ≠ []) :
    ∃ p n, ScheduleTasksCore fs tasks = .error (.missingDep p n) ∧
      ScheduleTasks fs st tasks = .error (.missingDep p n) := by
  rcases core_missing_of_offender fs st tasks hoff with
    ⟨t, _, p, _, _, _, hcore, hsched⟩
  exact ⟨p, t.name, hcore, hsched⟩

/-- Witness for amended C9: with both violations present, the
missing-dependency error wins. -/
theorem claim9_actual_order_witness :
    ∃ p n, ScheduleTasksCore fsEmpty [taskX, taskY] = .error (.missingDep p n) ∧
      ScheduleTasks fsEmpty stEmpty [taskX, taskY] = .error (.missingDep p n) :=
  claim9_actual_order fsEmpty stEmpty [taskX, taskY]
    ⟨taskY, by simp, "m", by simp [taskY], by decide, rfl⟩
    ⟨(taskX, taskY), by decide, by decide⟩

/-- Claim C10: `CalculateDepData` maps every path of `task.fileDep` to its
content digest; a missing file yields the sentinel absent digest `""`
rather than an error, and the digest of any existing file — the empty file
included — is distinct from that sentinel. -/
theorem claim10_fingerprint (fs : FS) (t : Task) (p : String) (hp : p ∈ t.fileDep) :
    lookupA (calcHashes fs t) p = some (hashFile fs p) ∧
    (fs p = none → hashFile fs p = "") ∧
    (∀ c, fs p = some c → hashFile fs p ≠ "") := by
  refine ⟨lookupA_calcHashes fs t p hp, ?_, ?_⟩
  · intro h
    unfold hashFile
    rw [h]
  · intro c hc
    unfold hashFile
    rw [hc]
    unfold hexDigest
    intro hcontra
    have h2 := congrArg String.length hcontra
    rw [String.length_append] at h2
    have h3 : ("md5:").length = 4 := rfl
    have h4 : ("" : String).length = 0 := rfl
    omega

/-- Witness for C10 at the absent path `g` of a concrete task. -/
theorem claim10_fingerprint_witness :
    lookupA (calcHashes fs4 taskW) "g" = some (hashFile fs4 "g") ∧
    (fs4 "g" = none → hashFile fs4 "g" = "") ∧
    (∀ c, fs4 "g" = some c → hashFile fs4 "g" ≠ "") :=
  claim10_fingerprint fs4 taskW "g" (by simp [taskW])

end GoDoit
